import Mathlib

/-!
Verification of the `cio` console-formatting library.

This file gives a shallow embedding, in Lean 4, of the library's pure core:

* `colorstyle.rs` — the ANSI style engine (`ansi_code_for_style`);
* `formatext.rs`  — the template lexer (`parse_format_string`) and the
  runtime semantics of the code emitted by `generate_output_code`;
* `extensions.rs` — the structured-data formatters (`count_nesting_depth`,
  `format_container`, `format_2d_array`, `format_nd_array`,
  `find_first_level_brackets`, `parse_2d_array`, `format_matrix`,
  `format_determinant`);
* `println.rs`    — the separator (`$(...)`) post-processing pipeline of
  `println_impl`.

Strings are modelled as `List Char` internally (the sources slice by byte
index; all structurally relevant characters are ASCII, where the two
notions of position coincide).  Rust functions that can panic (an index out
of `Vec` bounds, or a `usize` underflow of the depth counter) are modelled
with `Option`, `none` standing for the panic.  Loops over characters become
structurally recursive functions on `List Char`; the two regex scanners of
the lexer are modelled by fuel-indexed recursive scanners implementing the
leftmost, non-overlapping match semantics of `Regex::captures_iter` for the
two concrete patterns used by the source.
-/

/-- Slice of a character list: the characters of positions `[a, b)`,
mirroring Rust's `&s[a..b]` (for `a ≤ b`). -/
def sliceCs (cs : List Char) (a b : Nat) : List Char :=
  (cs.drop a).take (b - a)

/-- Left trim: drop leading whitespace, mirroring the left half of
Rust's `str::trim`. -/
def trimL (cs : List Char) : List Char :=
  cs.dropWhile Char.isWhitespace

/-- Full trim, mirroring Rust's `str::trim` (the sources only ever meet
ASCII whitespace). -/
def trimChars (cs : List Char) : List Char :=
  (trimL (trimL cs.reverse).reverse)

/-- Split a character list at every occurrence of `sep`, mirroring
Rust's `str::split` (which yields one, possibly empty, piece more than the
number of separators). -/
def splitOnChar (sep : Char) : List Char → List (List Char)
  | [] => [[]]
  | c :: cs =>
    match splitOnChar sep cs with
    | [] => if c = sep then [[], []] else [[c]]
    | g :: gs => if c = sep then [] :: g :: gs else (c :: g) :: gs

/-- Split off everything before the first occurrence of `sep`; `none` when
`sep` does not occur. -/
def splitAtFirst (sep : Char) : List Char → Option (List Char × List Char)
  | [] => none
  | c :: cs =>
    if c = sep then some ([], cs)
    else (splitAtFirst sep cs).map (fun p => (c :: p.1, p.2))

/-- Join string pieces with a separator, mirroring the source's
"push, and push the separator between consecutive pieces" loops. -/
def sepJoinL (sep : List Char) : List (List Char) → List Char
  | [] => []
  | [x] => x
  | x :: y :: t => x ++ sep ++ sepJoinL sep (y :: t)

/-- `n` copies of a two-space indent, mirroring `"  ".repeat(n)`. -/
def dupIndent : Nat → List Char
  | 0 => []
  | n + 1 => ' ' :: ' ' :: dupIndent n

/-- One step of the quote-tracking state used throughout the sources:
a double quote toggles the in-quotes flag. -/
def quoteFlip (q : Bool) (c : Char) : Bool :=
  if c = '"' then !q else q

/-- Quote state after scanning a list of characters. -/
def quoteState (q : Bool) : List Char → Bool
  | [] => q
  | c :: cs => quoteState (quoteFlip q c) cs

/-- Mask of one character under a quote state: characters inside quotes
are replaced by `'_'`, quotes themselves and characters outside quotes are
kept.  Masking keeps positions, so it is the right tool to state that the
structural scanners ignore quoted content. -/
def maskChar (q : Bool) (c : Char) : Char :=
  if c = '"' then '"' else if q then '_' else c

/-- Position-preserving mask of quoted content. -/
def maskAux (q : Bool) : List Char → List Char
  | [] => []
  | c :: cs => maskChar q c :: maskAux (quoteFlip q c) cs

/-- Mask starting outside quotes. -/
def maskQuoted (cs : List Char) : List Char := maskAux false cs

/-- The maximal double-quoted segments of a character list (the text
between an opening and a closing quote); an unterminated final segment is
also collected. -/
def quotedSegmentsAux (acc : List Char) (q : Bool) : List Char → List (List Char)
  | [] => if q then [acc.reverse] else []
  | c :: cs =>
    if c = '"' then
      if q then acc.reverse :: quotedSegmentsAux [] false cs
      else quotedSegmentsAux [] true cs
    else quotedSegmentsAux (if q then c :: acc else acc) q cs

/-- The double-quoted segments of a character list. -/
def quotedSegments (cs : List Char) : List (List Char) :=
  quotedSegmentsAux [] false cs

/- ## Style engine: `colorstyle.rs` -/

/-- The name-to-SGR-code table of `ansi_code_for_style`
(`colorstyle.rs`, the `match style.as_str()` arms); `none` is the
wildcard arm that silently drops unknown names. -/
def styleCode (style : String) : Option String :=
  match style with
  | "black" => some "30"
  | "red" => some "31"
  | "green" => some "32"
  | "yellow" => some "33"
  | "blue" => some "34"
  | "magenta" => some "35"
  | "cyan" => some "36"
  | "white" => some "37"
  | "bright_black" => some "90"
  | "gray" => some "90"
  | "bright_red" => some "91"
  | "bright_green" => some "92"
  | "bright_yellow" => some "93"
  | "bright_blue" => some "94"
  | "bright_magenta" => some "95"
  | "bright_cyan" => some "96"
  | "bright_white" => some "97"
  | "bold" => some "1"
  | "italic" => some "3"
  | "underline" => some "4"
  | "dimmed" => some "2"
  | "blink" => some "5"
  | "reversed" => some "7"
  | "hidden" => some "8"
  | "strikethrough" => some "9"
  | _ => none

/-- `ansi_code_for_style` (`colorstyle.rs`): empty input returns the reset
sequence; otherwise the recognised codes are collected in input order and
joined with `;`, falling back to the reset sequence when every name is
unknown. -/
def ansi_code_for_style (styles : List String) : String :=
  if styles.isEmpty then "\x1B[0m"
  else
    let codes := styles.filterMap styleCode
    if codes.isEmpty then "\x1B[0m"
    else "\x1B[" ++ String.intercalate ";" codes ++ "m"

/-- The full list of names recognised by `styleCode`. -/
def knownStyleNames : List String :=
  ["black", "red", "green", "yellow", "blue", "magenta", "cyan", "white",
   "bright_black", "gray", "bright_red", "bright_green", "bright_yellow",
   "bright_blue", "bright_magenta", "bright_cyan", "bright_white",
   "bold", "italic", "underline", "dimmed", "blink", "reversed", "hidden",
   "strikethrough"]

/- ## Template lexer: `formatext.rs` -/

/-- The token type produced by `parse_format_string`
(`enum FormatToken` in `formatext.rs`). -/
inductive FormatToken where
  | StyleChange (style_specs : List String)
  | StyleReset
  | Text (content : String)
  | Variable (name : String) (format : Option String)
      (format_args : Option (List String))
  | StyleVariable (name : String)
deriving DecidableEq

/-- `KNOWN_COLORS` of `formatext.rs`. -/
def KNOWN_COLORS : List String :=
  ["black", "red", "green", "yellow", "blue", "magenta", "cyan", "white",
   "bright_black", "gray", "bright_red", "bright_green", "bright_yellow",
   "bright_blue", "bright_magenta", "bright_cyan", "bright_white"]

/-- `KNOWN_STYLES` of `formatext.rs`. -/
def KNOWN_STYLES : List String :=
  ["bold", "italic", "underline", "dimmed", "blink", "reversed", "hidden",
   "strikethrough"]

/-- `is_known_term` of `formatext.rs`: trim, then membership in either
table. -/
def is_known_term (term : List Char) : Bool :=
  let trimmed := String.mk (trimChars term)
  KNOWN_COLORS.contains trimmed || KNOWN_STYLES.contains trimmed

/-- `is_style_list` of `formatext.rs`: a non-empty string one of whose
comma-separated, trimmed terms is a known colour or style name. -/
def is_style_list (expr : List Char) : Bool :=
  if expr.isEmpty then false
  else (splitOnChar ',' expr).any is_known_term

/-- Scanner for the style-marker pattern `@\(([^)]*)\)`: successive
leftmost matches; a match starts at `@(` and its content runs to the first
`)` (the pattern cannot cross a `)`), scanning resumes after the match.
Triples are `(start, end, content)` in template positions; the fuel is
always instantiated so that it dominates the length of the remaining
input. -/
def styleScanAux : Nat → List Char → Nat → List (Nat × Nat × List Char)
  | 0, _, _ => []
  | _ + 1, [], _ => []
  | fuel + 1, c :: cs, i =>
    if c = '@' ∧ cs.head? = some '(' then
      match splitAtFirst ')' cs.tail with
      | some (content, after) =>
        (i, i + content.length + 3, content)
          :: styleScanAux fuel after (i + content.length + 3)
      | none => []
    else styleScanAux fuel cs (i + 1)

/-- All style-marker matches of a template. -/
def styleScan (cs : List Char) : List (Nat × Nat × List Char) :=
  styleScanAux (cs.length + 1) cs 0

/-- The interpolation test of the style loop of `parse_format_string`:
`content.starts_with('{') && content.ends_with('}')` (no trimming). -/
def isInterpStyle (content : List Char) : Bool :=
  content.head? = some '{' && content.getLast? = some '}'

/-- The style loop of `parse_format_string` (lines 117–132): each raw
match becomes `(start, end, stored content, is_var flag)`; a
brace-interpolated content stores the reassembled `{name}` with the flag
set and records `name` as used, any other content stores itself with the
flag `!is_style_list content`. -/
def processStyles :
    List (Nat × Nat × List Char) →
      List (Nat × Nat × List Char × Bool) × List String
  | [] => ([], [])
  | (st, en, content) :: rest =>
    let (ms, us) := processStyles rest
    if isInterpStyle content then
      let vn := (content.drop 1).dropLast
      ((st, en, ('{' :: vn) ++ ['}'], true) :: ms, String.mk vn :: us)
    else
      ((st, en, content, !is_style_list content) :: ms, us)

/-- The second style pass of `parse_format_string` (lines 156–170):
empty content is a reset, a flagged content a style variable (trimmed),
anything else a style change carrying the comma-split trimmed terms. -/
def tokenOfStyle (content : List Char) (isVar : Bool) : FormatToken :=
  if content.isEmpty then FormatToken.StyleReset
  else if isVar then FormatToken.StyleVariable (String.mk (trimChars content))
  else
    FormatToken.StyleChange
      ((splitOnChar ',' content).map (fun s => String.mk (trimChars s)))

/-- Attempt to close a variable marker after a candidate `EXPR`, i.e. to
match `(?::([^{}(]+)(?:\(([^)]*)\))?)?}` against the remainder.  Returned
are the format capture, the args capture and the characters after the
match.  The case analysis implements the backtracking order of the regex
engine: the optional `:FORMAT(ARGS)` group is tried first (its `FORMAT` is
forced to the maximal run without `{`, `}`, `(`, and `ARGS` to the run up
to the first `)`), then the bare closing brace. -/
def tryFinish (r : List Char) :
    Option (Option (List Char) × Option (List Char) × List Char) :=
  match r with
  | '}' :: r2 => some (none, none, r2)
  | ':' :: r2 =>
    let fm := r2.takeWhile (fun c => !(c = '{' || c = '}' || c = '('))
    let r3 := r2.dropWhile (fun c => !(c = '{' || c = '}' || c = '('))
    if fm.isEmpty then none
    else
      match r3 with
      | '(' :: r4 =>
        match splitAtFirst ')' r4 with
        | some (args, r5) =>
          match r5 with
          | '}' :: r6 => some (some fm, some args, r6)
          | _ => none
        | none => none
      | '}' :: r4 => some (some fm, none, r4)
      | _ => none
  | _ => none

/-- The lazy `EXPR` loop of the variable-marker pattern
`\{([^{}]+?)(?::([^{}(]+)(?:\(([^)]*)\))?)?}`: grow `EXPR` one non-brace
character at a time and try to finish the match after each character. -/
def matchVarGrow :
    Nat → List Char → List Char →
      Option (List Char × Option (List Char) × Option (List Char) × List Char)
  | 0, _, _ => none
  | _ + 1, _, [] => none
  | fuel + 1, expr, c :: r2 =>
    if c = '{' ∨ c = '}' then none
    else
      let e2 := expr ++ [c]
      match tryFinish r2 with
      | some (fm, ar, rem) => some (e2, fm, ar, rem)
      | none => matchVarGrow fuel e2 r2

/-- Scanner for the variable-marker pattern: successive leftmost matches,
each started at a `{` and matched by `matchVarGrow`; scanning resumes
after a match.  Entries are
`(start, end, expr, format capture, args capture)`. -/
def varScanAux :
    Nat → List Char → Nat →
      List (Nat × Nat × List Char × Option (List Char) × Option (List Char))
  | 0, _, _ => []
  | _ + 1, [], _ => []
  | fuel + 1, c :: cs, i =>
    if c = '{' then
      match matchVarGrow (cs.length + 1) [] cs with
      | some (e, fm, ar, rem) =>
        let len := (c :: cs).length - rem.length
        (i, i + len, e, fm, ar) :: varScanAux fuel rem (i + len)
      | none => varScanAux fuel cs (i + 1)
    else varScanAux fuel cs (i + 1)

/-- All variable-marker matches of a template. -/
def varScan (cs : List Char) :
    List (Nat × Nat × List Char × Option (List Char) × Option (List Char)) :=
  varScanAux (cs.length + 1) cs 0

/-- The used-variable condition of the variable loop (lines 148–149): no
space and no `*`, `+`, `-`, `/`, `.` in the expression. -/
def exprIsTracked (e : List Char) : Bool :=
  !(e.contains ' ') && !(e.contains '*') && !(e.contains '+') &&
    !(e.contains '-') && !(e.contains '/') && !(e.contains '.')

/-- The skip test of the variable loop (lines 145–146): some processed
style match has its `is_var` flag set and content exactly `{expr}`. -/
def isSkippedExpr (styleMs : List (Nat × Nat × List Char × Bool))
    (e : List Char) : Bool :=
  styleMs.any (fun m => m.2.2.2 && m.2.2.1 = ('{' :: e) ++ ['}'])

/-- The `format_args` post-processing of the variable loop: split the raw
args capture on commas and trim each piece. -/
def argsSplit (a : List Char) : List String :=
  (splitOnChar ',' a).map (fun s => String.mk (trimChars s))

/-- The variable loop of `parse_format_string` (lines 133–155): matches
whose expression reproduces an interpolated style variable are dropped;
the remaining ones are kept (recording trackable expressions as used). -/
def processVars (styleMs : List (Nat × Nat × List Char × Bool)) :
    List (Nat × Nat × List Char × Option (List Char) × Option (List Char)) →
      List (Nat × Nat × FormatToken) × List String
  | [] => ([], [])
  | (st, en, e, fm, ar) :: rest =>
    let r := processVars styleMs rest
    if isSkippedExpr styleMs e then r
    else
      ((st, en,
         FormatToken.Variable (String.mk e) (fm.map String.mk)
           (ar.map argsSplit)) :: r.1,
       (if exprIsTracked e then [String.mk e] else []) ++ r.2)

/-- Insertion into a start-sorted match list; an entry with an equal key
goes after the existing ones, matching the stability of
`sort_by_key`. -/
def insertByStart (m : Nat × Nat × FormatToken) :
    List (Nat × Nat × FormatToken) → List (Nat × Nat × FormatToken)
  | [] => [m]
  | x :: xs => if m.1 < x.1 then m :: x :: xs else x :: insertByStart m xs

/-- Stable sort by starting offset (`all_matches.sort_by_key(|m| m.0)`). -/
def sortByStart : List (Nat × Nat × FormatToken) → List (Nat × Nat × FormatToken)
  | [] => []
  | m :: ms => insertByStart m (sortByStart ms)

/-- The merged, started-sorted match list of a template: style tokens
followed by variable tokens, sorted by starting offset. -/
def allMatchesOf (cs : List Char) : List (Nat × Nat × FormatToken) :=
  let styleMs := (processStyles (styleScan cs)).1
  let styleTokens := styleMs.map
    (fun m => (m.1, m.2.1, tokenOfStyle m.2.2.1 m.2.2.2))
  let varTokens := (processVars styleMs (varScan cs)).1
  sortByStart (styleTokens ++ varTokens)

/-- The gap-filling merge loop of `parse_format_string` (lines 178–193):
a text token for every non-empty gap before a match, the match's token,
and a final text token for the tail of the template. -/
def fillTokens (cs : List Char) :
    Nat → List (Nat × Nat × FormatToken) → List FormatToken
  | last, [] =>
    if last < cs.length then
      [FormatToken.Text (String.mk (sliceCs cs last cs.length))]
    else []
  | last, (st, en, tok) :: rest =>
    (if st > last then [FormatToken.Text (String.mk (sliceCs cs last st))]
     else []) ++ tok :: fillTokens cs en rest

/-- The used-variable list of a template: names recorded by the style
loop followed by names recorded by the variable loop, in source order. -/
def usedVarsOf (cs : List Char) : List String :=
  let styleMs := (processStyles (styleScan cs)).1
  let styleUsed := (processStyles (styleScan cs)).2
  let varUsed := (processVars styleMs (varScan cs)).2
  styleUsed ++ varUsed

/-- `parse_format_string` (`formatext.rs`): the token sequence and the
used-variable list of a template. -/
def parse_format_string (s : String) : List FormatToken × List String :=
  (fillTokens s.data 0 (allMatchesOf s.data), usedVarsOf s.data)

/- ## Structured-data formatters: `extensions.rs` -/

/-- The loop body of `count_nesting_depth` (`extensions.rs`): quotes
toggle the in-quotes flag, unquoted brackets move the depth counter, the
maximum is tracked.  The counters are `usize` in the source, so a `]` at
depth `0` outside quotes underflows — modelled by `none`. -/
def cndAux : List Char → Bool → Nat → Nat → Option Nat
  | [], _, _, maxd => some maxd
  | c :: cs, q, d, maxd =>
    if c = '"' then cndAux cs (!q) d maxd
    else if c = '[' && !q then cndAux cs q (d + 1) (Nat.max maxd (d + 1))
    else if c = ']' && !q then
      if d = 0 then none else cndAux cs q (d - 1) maxd
    else cndAux cs q d maxd

/-- `count_nesting_depth` (`extensions.rs`). -/
def count_nesting_depth (cs : List Char) : Option Nat :=
  cndAux cs false 0 0

/-- Replace every (non-overlapping, leftmost) occurrence of `pat` by
`repl`, mirroring Rust's `str::replace`. -/
def replaceAll : Nat → List Char → List Char → List Char → List Char
  | 0, _, _, cs => cs
  | _ + 1, _, _, [] => []
  | fuel + 1, pat, repl, c :: cs =>
    if pat.isPrefixOf (c :: cs) then
      repl ++ replaceAll fuel pat repl ((c :: cs).drop pat.length)
    else c :: replaceAll fuel pat repl cs

/-- `format_2d_array` (`extensions.rs`): the three plain (not
quote-aware) textual rewrites applied in sequence. -/
def format_2d_array (s : String) : String :=
  let r1 := replaceAll (s.data.length + 1) "[[".data "[\n  [".data s.data
  let r2 := replaceAll (r1.length + 1) "]]".data "]\n]".data r1
  String.mk (replaceAll (r2.length + 1) "], [".data "],\n  [".data r2)

/-- The loop body of `find_first_level_brackets` (`extensions.rs`); the
level counter is an `i32` in the source, so it may go negative. -/
def ffbAux : List Char → Nat → Int → Bool → Nat → List (Nat × Nat)
  | [], _, _, _, _ => []
  | c :: cs, i, level, inq, start =>
    if c = '"' then ffbAux cs (i + 1) level (!inq) start
    else if c = '[' && !inq then
      ffbAux cs (i + 1) (level + 1) inq (if level = 0 then i else start)
    else if c = ']' && !inq then
      if level - 1 = 0 then (start, i) :: ffbAux cs (i + 1) (level - 1) inq start
      else ffbAux cs (i + 1) (level - 1) inq start
    else ffbAux cs (i + 1) level inq start

/-- `find_first_level_brackets` (`extensions.rs`): the spans (start and
end position, both inclusive in the source) of the top-level bracket
groups, counted outside quotes.  The identical scan is also the row pass
of `parse_2d_array`. -/
def find_first_level_brackets (content : List Char) : List (Nat × Nat) :=
  ffbAux content 0 0 false 0

/-- The `sub_array.contains("[[")` test of `format_sub_array`. -/
def hasDoubleOpen : List Char → Bool
  | '[' :: '[' :: _ => true
  | _ :: rest => hasDoubleOpen rest
  | [] => false

/-- `format_sub_array` (`extensions.rs`): a piece without `[[` is kept
verbatim; otherwise its top-level bracket groups are laid out one per
line, indented two further spaces, with the closing bracket on the parent
indent.  The fuel dominates the recursion depth (each level strips the
outer bracket pair). -/
def format_sub_array : Nat → List Char → Nat → List Char
  | 0, sub, _ => sub
  | fuel + 1, sub, indent =>
    if !hasDoubleOpen sub then sub
    else
      let content := (sub.drop 1).dropLast
      let brackets := find_first_level_brackets content
      let pieces := brackets.map (fun p =>
        dupIndent (indent + 1) ++
          format_sub_array fuel (sliceCs content p.1 (p.2 + 1)) (indent + 1))
      "[\n".data ++ sepJoinL ",\n".data pieces ++
        '\n' :: dupIndent indent ++ [']']

/-- `format_nd_array` (`extensions.rs`): strip the outer brackets, lay
the top-level bracket groups out one per line behind a two-space indent,
and close on column zero. -/
def format_nd_array (s : List Char) : List Char :=
  let content := (s.drop 1).dropLast
  let brackets := find_first_level_brackets content
  let pieces := brackets.map (fun p =>
    "  ".data ++
      format_sub_array (content.length + 1) (sliceCs content p.1 (p.2 + 1)) 1)
  "[\n".data ++ sepJoinL ",\n".data pieces ++ "\n]".data

/-- `format_container` (`extensions.rs`): representations not starting
with `[` pass through; otherwise dispatch on the nesting depth (`none`
propagates the depth counter's underflow). -/
def format_container (s : String) : Option String :=
  if s.data.head? = some '[' then
    match count_nesting_depth s.data with
    | none => none
    | some 0 => some s
    | some 1 => some s
    | some 2 => some (format_2d_array s)
    | some _ => some (String.mk (format_nd_array s.data))
  else some s

/-- The element loop of `parse_2d_array` (`extensions.rs`): split a row
interior at unquoted, bracket-level-zero commas, trimming each element;
the final element is kept only when its trim is non-empty.  The bracket
level is an `i32` in the source. -/
def splitRowAux : List Char → Bool → Int → List Char → List String
  | [], _, _, elem =>
    if (trimChars elem).isEmpty then [] else [String.mk (trimChars elem)]
  | c :: cs, inq, lvl, elem =>
    if c = '"' then splitRowAux cs (!inq) lvl (elem ++ [c])
    else if c = '[' && !inq then splitRowAux cs inq (lvl + 1) (elem ++ [c])
    else if c = ']' && !inq then splitRowAux cs inq (lvl - 1) (elem ++ [c])
    else if c = ',' && !inq && lvl = 0 then
      String.mk (trimChars elem) :: splitRowAux cs inq lvl []
    else splitRowAux cs inq lvl (elem ++ [c])

/-- Element split of one row interior. -/
def splitRowElements (r : List Char) : List String :=
  splitRowAux r false 0 []

/-- The raw comma-split segments of a row interior: the same structural
scan as `splitRowAux`, but keeping every segment untrimmed, the final one
included.  `splitRowAux` is this split followed by the source's
per-segment trimming (`splitRowAux_eq_segments`), so the segment
boundaries are exactly the split positions of the element loop. -/
def rowSegmentsAux : List Char → Bool → Int → List Char → List (List Char)
  | [], _, _, elem => [elem]
  | c :: cs, inq, lvl, elem =>
    if c = '"' then rowSegmentsAux cs (!inq) lvl (elem ++ [c])
    else if c = '[' && !inq then rowSegmentsAux cs inq (lvl + 1) (elem ++ [c])
    else if c = ']' && !inq then rowSegmentsAux cs inq (lvl - 1) (elem ++ [c])
    else if c = ',' && !inq && lvl = 0 then
      elem :: rowSegmentsAux cs inq lvl []
    else rowSegmentsAux cs inq lvl (elem ++ [c])

/-- The raw comma-split segments of one row interior. -/
def rowSegments (r : List Char) : List (List Char) :=
  rowSegmentsAux r false 0 []

/-- The per-segment post-processing of the element loop: every segment is
trimmed, and the final one is kept only when its trim is non-empty. -/
def elementsOfSegments : List (List Char) → List String
  | [] => []
  | [e] => if (trimChars e).isEmpty then [] else [String.mk (trimChars e)]
  | e :: s :: t => String.mk (trimChars e) :: elementsOfSegments (s :: t)

/-- `parse_2d_array` (`extensions.rs`): a representation delimited by
`[` … `]` is cut into top-level bracket rows (same scan as
`find_first_level_brackets`) and each row interior into elements;
anything else is `none`. -/
def parse_2d_array (s : String) : Option (List (List String)) :=
  let cs := s.data
  if cs.head? = some '[' && cs.getLast? = some ']' then
    let content := (cs.drop 1).dropLast
    some ((find_first_level_brackets content).map (fun p =>
      let rowStr := sliceCs content p.1 (p.2 + 1)
      splitRowElements ((rowStr.drop 1).dropLast)))
  else none

/-- Left-aligned padding of a cell to a column width, mirroring
`format!("{:<width$}", val)`. -/
def padCell (v : String) (w : Nat) : List Char :=
  v.data ++ List.replicate (w - v.length) ' '

/-- One step of the column-width fold of `format_matrix` /
`format_determinant`: widths are updated elementwise, positions beyond
`ncols` (the widths' length) being ignored by the `j < ncols` guard. -/
def updWidths : List Nat → List String → List Nat
  | [], _ => []
  | ws, [] => ws
  | w :: ws, v :: vs => Nat.max w v.length :: updWidths ws vs

/-- The column widths computed by `format_matrix` / `format_determinant`:
a fold of `updWidths` over the rows, starting from `vec![0; ncols]`. -/
def colWidthsCode (g : List (List String)) (ncols : Nat) : List Nat :=
  g.foldl updWidths (List.replicate ncols 0)

/-- The cell loop of the row rendering: each cell is padded to
`col_widths[j]` (an out-of-bounds index — a row longer than the first —
is the source's panic, modelled by `none`), and a two-space separator
follows every cell with `j < ncols - 1`. -/
def renderCells (widths : List Nat) (ncols : Nat) :
    List String → Nat → Option (List Char)
  | [], _ => some []
  | v :: vs, j =>
    match widths.get? j with
    | none => none
    | some w =>
      match renderCells widths ncols vs (j + 1) with
      | none => none
      | some rest =>
        some (padCell v w ++ (if j < ncols - 1 then "  ".data else []) ++ rest)

/-- The bracket glyphs of `format_matrix`, by row count and row index:
`⦅ ⦆` for a single-row matrix, `⎛ ⎞` for the first and `⎝ ⎠` for the
last row of a multi-row matrix, `│ │` in between. -/
def glyphOf (nrows i : Nat) : List Char × List Char :=
  if nrows = 1 then ("⦅".data, "⦆".data)
  else if i = 0 then ("⎛".data, "⎞".data)
  else if i = nrows - 1 then ("⎝".data, "⎠".data)
  else ("│".data, "│".data)

/-- One rendered row: left glyph, two spaces, the cells, two spaces,
right glyph, newline. -/
def renderRowLine (l r : List Char) (widths : List Nat) (ncols : Nat)
    (row : List String) : Option (List Char) :=
  (renderCells widths ncols row 0).map
    (fun cells => l ++ "  ".data ++ cells ++ "  ".data ++ r ++ ['\n'])

/-- The row loop of `format_matrix`. -/
def renderRowsM (nrows : Nat) (widths : List Nat) (ncols : Nat) :
    List (List String) → Nat → Option (List Char)
  | [], _ => some []
  | row :: rest, i =>
    match renderRowLine (glyphOf nrows i).1 (glyphOf nrows i).2 widths
        ncols row, renderRowsM nrows widths ncols rest (i + 1) with
    | some a, some b => some (a ++ b)
    | _, _ => none

/-- `format_matrix` (`extensions.rs`): an unparsable representation
passes through, an empty row list gives the literal `[Empty Matrix]`,
otherwise the rows are rendered with position-dependent glyphs (`none`
is the source's out-of-bounds panic on a row longer than the first). -/
def format_matrix (s : String) : Option String :=
  match parse_2d_array s with
  | none => some s
  | some matrix =>
    if matrix.length = 0 then some "[Empty Matrix]"
    else
      let ncols := (matrix.headD []).length
      let widths := colWidthsCode matrix ncols
      (renderRowsM matrix.length widths ncols matrix 0).map String.mk

/-- The row loop of `format_determinant` (always `│ │` glyphs). -/
def renderRowsD (widths : List Nat) (ncols : Nat) :
    List (List String) → Option (List Char)
  | [] => some []
  | row :: rest =>
    match renderRowLine "│".data "│".data widths ncols row,
        renderRowsD widths ncols rest with
    | some a, some b => some (a ++ b)
    | _, _ => none

/-- `format_determinant` (`extensions.rs`): an unparsable representation
gives the invalid-matrix fallback; a row count different from the first
row's length, or fewer than two rows, gives the non-square fallback;
otherwise the rows are rendered between vertical bars. -/
def format_determinant (s : String) : Option String :=
  match parse_2d_array s with
  | none => some "Determinant undefined (invalid matrix)"
  | some matrix =>
    let nrows := matrix.length
    let ncols := (matrix.headD []).length
    if nrows ≠ ncols ∨ nrows < 2 then
      some "Determinant undefined (non-square or too small matrix)"
    else
      let widths := colWidthsCode matrix ncols
      (renderRowsD widths ncols matrix).map String.mk

/- ## Renderer semantics of `generate_output_code` and `println_impl` -/

/-- The external value resolver (spec §1/§4.4): `varFmt` is the text the
generated code appends for a `Variable` token (the value formatted under
the given format specifier and arguments), `styleVal` the runtime string
value of a style variable, `display` the `Display` text of a separator
variable. -/
structure Resolver where
  varFmt : String → Option String → Option (List String) → String
  styleVal : String → String
  display : String → String

/-- The runtime string appended per token by the code that
`generate_output_code` (`formatext.rs`) emits: style changes and style
variables append the reset sequence and then the freshly resolved ANSI
code, a reset appends the reset sequence, text appends itself, a variable
appends its resolved formatted value. -/
def tokenPiece (R : Resolver) : FormatToken → List Char
  | FormatToken.StyleChange specs =>
    "\x1B[0m".data ++ (ansi_code_for_style specs).data
  | FormatToken.StyleVariable n =>
    "\x1B[0m".data ++
      (ansi_code_for_style
        ((splitOnChar ',' (R.styleVal n).data).map
          (fun s => String.mk (trimChars s)))).data
  | FormatToken.StyleReset => "\x1B[0m".data
  | FormatToken.Text c => c.data
  | FormatToken.Variable n f a => (R.varFmt n f a).data

/-- The token loop of the generated code: an accumulating result buffer,
the tracked current style list (mutated but never read back — kept to
mirror the source), and the unconditional trailing reset append. -/
def renderLoop (R : Resolver) (acc : List Char) (cur : List String) :
    List FormatToken → List Char
  | [] => acc ++ "\x1B[0m".data
  | FormatToken.StyleChange specs :: ts =>
    renderLoop R
      (acc ++ "\x1B[0m".data ++ (ansi_code_for_style specs).data) specs ts
  | FormatToken.StyleVariable n :: ts =>
    renderLoop R
      (acc ++ "\x1B[0m".data ++
        (ansi_code_for_style
          ((splitOnChar ',' (R.styleVal n).data).map
            (fun s => String.mk (trimChars s)))).data) cur ts
  | FormatToken.StyleReset :: ts =>
    renderLoop R (acc ++ "\x1B[0m".data) [] ts
  | FormatToken.Text c :: ts =>
    renderLoop R (if c.isEmpty then acc else acc ++ c.data) cur ts
  | FormatToken.Variable n f a :: ts =>
    renderLoop R (acc ++ (R.varFmt n f a).data) cur ts

/-- The buffer assembled at runtime by the code generated for a token
sequence. -/
def renderTokens (R : Resolver) (ts : List FormatToken) : List Char :=
  renderLoop R [] [] ts

/-- Scanner for the separator pattern `\$\(([^)]*)\)$` of `println_impl`
(`println.rs`): the leftmost `$(` whose content runs, without any `)`,
up to a `)` that is the final character of the template.  Returns the
match position and the content. -/
def sepScanAux : List Char → Nat → Option (Nat × List Char)
  | [], _ => none
  | c :: cs, i =>
    if c = '$' ∧ cs.head? = some '(' then
      let rest := cs.tail
      if rest.getLast? = some ')' ∧ ¬ rest.dropLast.contains ')' then
        some (i, rest.dropLast)
      else sepScanAux cs (i + 1)
    else sepScanAux cs (i + 1)

/-- The separator match of a template. -/
def sepScanOf (t : String) : Option (Nat × List Char) :=
  sepScanAux t.data 0

/-- The bare-identifier test of `println_impl`
(`^[a-zA-Z_][a-zA-Z0-9_]*$`). -/
def isValidIdent (c : List Char) : Bool :=
  match c with
  | [] => false
  | h :: t =>
    (h.isAlpha || h = '_') && t.all (fun x => x.isAlphanum || x = '_')

/-- The runtime behaviour of the `print!` call generated for a
non-identifier separator content: `println_impl` (`println.rs`, the
literal branch `format!("print!(\"{}\");", sep_var)`) splices the content
unescaped into the format-string literal of a generated `print!` call, so
the content is interpreted by the host's format-string machinery rather
than printed verbatim.  Modelled here: `\x7b\x7b` and `\x7d\x7d` collapse
to single braces; `\x7bident\x7d` and `\x7bident:spec\x7d` re-enter the
host's formatting facility on the captured identifier (the `varFmt`
oracle, as for a `Variable` token); any other brace use — an empty or
non-identifier argument, an unmatched opening brace, an undoubled closing
brace — makes the generated format string invalid, failing the macro's
code generation (`none`).  Characters outside braces print verbatim.  The
fuel argument only drives the recursion (`length + 1` always suffices). -/
def printFmtInterp (R : Resolver) : Nat → List Char → Option (List Char)
  | _, [] => some []
  | 0, _ :: _ => none
  | fuel + 1, c :: rest =>
    if c = '{' then
      if rest.head? = some '{' then
        (printFmtInterp R fuel rest.tail).map (fun t => '{' :: t)
      else
        match splitAtFirst '}' rest with
        | none => none
        | some (arg, after) =>
          let idPart := match splitAtFirst ':' arg with
            | none => arg
            | some p => p.1
          let spec : Option String := match splitAtFirst ':' arg with
            | none => none
            | some p => some (String.mk p.2)
          if isValidIdent idPart then
            (printFmtInterp R fuel after).map
              (fun t => (R.varFmt (String.mk idPart) spec none).data ++ t)
          else none
    else if c = '}' then
      if rest.head? = some '}' then
        (printFmtInterp R fuel rest.tail).map (fun t => '}' :: t)
      else none
    else (printFmtInterp R fuel rest).map (fun t => c :: t)

/-- What the code generated by `println_impl` prints after the main
buffer for a separator content: nothing for the literal `""` (the
input-call marker); the display value of a bare identifier (the generated
code is `print!("\x7b\x7d", content)`); otherwise the content is spliced
unescaped into a `print!` format string (`println.rs` line 104) — a
content containing a quote ends the generated string literal early and a
backslash is re-interpreted as an escape sequence, so neither prints the
content verbatim (collapsed to the failure value `none`); any other
content is interpreted as a format string by `printFmtInterp`. -/
def sepEmit (R : Resolver) (c : List Char) : Option (List Char) :=
  if c = ['"', '"'] then some []
  else if isValidIdent c then some (R.display (String.mk c)).data
  else if c.contains '"' || c.contains '\\' then none
  else printFmtInterp R (c.length + 1) c

/-- The end-to-end output of `println_impl` (`println.rs`) for one
template, as the character sequence written to the output stream: with a
trailing separator directive the directive is stripped before lexing, the
buffer is printed without a newline and the separator emission follows
(`none` when the spliced separator content breaks the generated code);
without a directive the buffer is printed with a trailing newline. -/
def printlnOutput (R : Resolver) (t : String) : Option (List Char) :=
  match sepScanOf t with
  | none => some (renderTokens R (parse_format_string t).1 ++ ['\n'])
  | some (i, c) =>
    let stripped := String.mk (t.data.take i)
    (sepEmit R c).map
      (fun s => renderTokens R (parse_format_string stripped).1 ++ s)

/-- A concrete resolver used to instantiate the counterexample and
witness statements: every lookup formats the name between angle
brackets. -/
def constResolver : Resolver :=
  Resolver.mk (fun n _ _ => "<" ++ n ++ ">") (fun _ => "")
    (fun n => "<" ++ n ++ ">")

/- ## Spec-side definitions (the claims' wording) -/

/-- Classification of one style marker as implemented: the two passes of
`parse_format_string` composed, giving the emitted token and the names
recorded as used. -/
def codeClassifyStyle (content : List Char) : FormatToken × List String :=
  match processStyles [(0, 0, content)] with
  | ((_, _, stored, flag) :: _, used) => (tokenOfStyle stored flag, used)
  | ([], used) => (FormatToken.StyleReset, used)

/-- Classification of one style marker as worded by claim C1: empty
content resets; else a content that after trimming is exactly `{name}`
for a brace-free `name` is an interpolation, emitting a style variable
for `name` and recording `name`; else a content with a known
comma-separated term is a style change; else a style variable named by
the trimmed content. -/
def specClassifyStyle (content : List Char) : FormatToken × List String :=
  if content.isEmpty then (FormatToken.StyleReset, [])
  else
    let t := trimChars content
    if t.head? = some '{' ∧ t.getLast? = some '}' ∧ 2 ≤ t.length ∧
        ¬ (t.drop 1).dropLast.contains '{' ∧
        ¬ (t.drop 1).dropLast.contains '}' then
      let name := (t.drop 1).dropLast
      (FormatToken.StyleVariable (String.mk name), [String.mk name])
    else if (splitOnChar ',' content).any is_known_term then
      (FormatToken.StyleChange
        ((splitOnChar ',' content).map (fun s => String.mk (trimChars s))), [])
    else (FormatToken.StyleVariable (String.mk (trimChars content)), [])

/-- Start-sortedness of a match list. -/
def startSorted : List (Nat × Nat × FormatToken) → Bool
  | [] => true
  | [_] => true
  | a :: b :: t => decide (a.1 ≤ b.1) && startSorted (b :: t)

/-- Well-placed spans: starting from `last`, each span starts no earlier
than the previous one ended, is ordered, and the list ends within the
template. -/
def spanChainFrom (len : Nat) : Nat → List (Nat × Nat × FormatToken) → Bool
  | last, [] => decide (last ≤ len)
  | last, (st, en, _) :: rest =>
    decide (last ≤ st) && decide (st ≤ en) && spanChainFrom len en rest

/-- The text slices that `fillTokens` puts into its `Text` tokens: the
non-empty gaps before each match and the tail after the last match. -/
def gapsList (cs : List Char) : Nat → List (Nat × Nat × FormatToken) → List String
  | last, [] =>
    if last < cs.length then [String.mk (sliceCs cs last cs.length)] else []
  | last, (st, en, _) :: rest =>
    (if st > last then [String.mk (sliceCs cs last st)] else []) ++
      gapsList cs en rest

/-- The `Text` contents of a token list, in order. -/
def textsOf : List FormatToken → List String
  | [] => []
  | FormatToken.Text c :: ts => c :: textsOf ts
  | _ :: ts => textsOf ts

/-- The characters covered by the merge: each gap slice, each match's
span slice, and the tail, concatenated in template order. -/
def fillCover (cs : List Char) : Nat → List (Nat × Nat × FormatToken) → List Char
  | last, [] => sliceCs cs last cs.length
  | last, (st, en, _) :: rest =>
    (if st > last then sliceCs cs last st else []) ++
      sliceCs cs st en ++ fillCover cs en rest

/-- Consecutive-span disjointness of a match list (each marker ends
before the next starts), the hypothesis under which no template
character belongs to two tokens. -/
def spansDisjoint : List (Nat × Nat × FormatToken) → Bool
  | [] => true
  | [_] => true
  | (_, en, _) :: (st2, en2, t2) :: rest =>
    decide (en ≤ st2) && spansDisjoint ((st2, en2, t2) :: rest)

/-- The column widths as worded by claim C6: for each column index, the
maximum string length of that column across all rows. -/
def specColWidths (g : List (List String)) (ncols : Nat) : List Nat :=
  (List.range ncols).map
    (fun j => g.foldl (fun a r => Nat.max a ((r.getD j "").length)) 0)

/-- One rendered row as worded by claims C6/C7: the row's cells padded to
their column widths, joined by two spaces, between the glyphs with
two-space interior padding. -/
def specRowLine (l r : List Char) (widths : List Nat)
    (row : List String) : List Char :=
  l ++ "  ".data ++
    sepJoinL "  ".data (List.zipWith padCell row widths) ++
    "  ".data ++ r ++ ['\n']

/-- The matrix rendering as worded by claim C6: one line per row with the
position-dependent bracket glyphs. -/
def specMatrixLinesAux (nrows : Nat) (widths : List Nat) :
    List (List String) → Nat → List Char
  | [], _ => []
  | row :: rest, i =>
    specRowLine (glyphOf nrows i).1 (glyphOf nrows i).2 widths row ++
      specMatrixLinesAux nrows widths rest (i + 1)

/-- The matrix rendering as worded by claim C6, as a string. -/
def specMatrixRender (g : List (List String)) : String :=
  String.mk
    (specMatrixLinesAux g.length (specColWidths g (g.headD []).length) g 0)

/-- One rendered row as worded by claim C7, for a row no longer than the
first: the row's cells padded to their column widths and joined by two
spaces; a non-empty row shorter than `ncols` gets one further two-space
separator after its last cell (the source's `j < ncols - 1` test still
holds there), doubling the trailing gap. -/
def specRowLineG (l r : List Char) (widths : List Nat) (ncols : Nat)
    (row : List String) : List Char :=
  l ++ "  ".data ++
    sepJoinL "  ".data (List.zipWith padCell row widths) ++
    (if row.length < ncols ∧ row ≠ [] then "  ".data else []) ++
    "  ".data ++ r ++ ['\n']

/-- The determinant rendering as worded by claim C7: every row between
`│ │`, same widths and padding as the matrix rendering, with the doubled
trailing gap on rows shorter than the first. -/
def specDetRender (g : List (List String)) : String :=
  String.mk
    ((g.map (specRowLineG "│".data "│".data
      (specColWidths g (g.headD []).length) (g.headD []).length)).flatten)

/-- Squareness of a grid in the sense of claim C7: as many rows as there
are columns in each row. -/
def specSquare (g : List (List String)) : Bool :=
  g.all (fun r => r.length = g.length)

/- ## Helper lemmas -/

theorem dropWhile_eq_self_of_head {p : Char → Bool} {c : List Char} {h : Char}
    (hh : c.head? = some h) (hp : p h = false) : c.dropWhile p = c := by
  cases c with
  | nil => rfl
  | cons a t =>
    have : a = h := by simpa using hh
    subst this
    simp [List.dropWhile_cons, hp]

theorem trimChars_eq_self_of_ends {c : List Char} {h l : Char}
    (hh : c.head? = some h) (hl : c.getLast? = some l)
    (nw1 : h.isWhitespace = false) (nw2 : l.isWhitespace = false) :
    trimChars c = c := by
  unfold trimChars trimL
  have h1 : c.reverse.dropWhile Char.isWhitespace = c.reverse := by
    apply dropWhile_eq_self_of_head (h := l) _ nw2
    rw [List.head?_reverse]; exact hl
  rw [h1, List.reverse_reverse]
  exact dropWhile_eq_self_of_head hh nw1

theorem interp_reconstruct {c : List Char} (hI : isInterpStyle c = true) :
    ('{' :: (c.drop 1).dropLast) ++ ['}'] = c := by
  unfold isInterpStyle at hI
  simp only [Bool.and_eq_true, decide_eq_true_eq] at hI
  obtain ⟨h1, h2⟩ := hI
  cases c with
  | nil => simp at h1
  | cons a t =>
    have ha : a = '{' := by simpa using h1
    subst ha
    cases t with
    | nil => simp [List.getLast?] at h2
    | cons b u =>
      have hne : (b :: u) ≠ [] := by simp
      have hlast : (b :: u).getLast? = some '}' := by
        simpa [List.getLast?_cons_cons] using h2
      have hg : (b :: u).getLast hne = '}' := by
        have := List.getLast?_eq_getLast (b :: u) hne
        rw [this] at hlast
        exact Option.some.inj hlast
      have hd := List.dropLast_append_getLast hne
      simp only [List.drop_succ_cons, List.drop_zero, List.cons_append,
        List.cons.injEq, true_and]
      rw [← hg]
      exact hd

/- ## Claim C1 -/

/-- C1: for a style marker content, the implemented classification —
empty content resets; a content that itself starts with `{` and ends with
`}` is the interpolation case, emitting a `StyleVariable` that carries the
brace-wrapped content and recording the interior as used; otherwise a
content one of whose comma-split trimmed terms is known becomes a
`StyleChange` with the full trimmed term list; otherwise a `StyleVariable`
named by the trimmed content, with nothing recorded. -/
theorem claim1_amended (c : List Char) :
    (c.isEmpty → codeClassifyStyle c = (FormatToken.StyleReset, []))
    ∧ (isInterpStyle c →
        codeClassifyStyle c =
          (FormatToken.StyleVariable (String.mk c),
            [String.mk ((c.drop 1).dropLast)]))
    ∧ (¬ c.isEmpty → ¬ isInterpStyle c → is_style_list c →
        codeClassifyStyle c =
          (FormatToken.StyleChange
            ((splitOnChar ',' c).map (fun s => String.mk (trimChars s))), []))
    ∧ (¬ c.isEmpty → ¬ isInterpStyle c → ¬ is_style_list c →
        codeClassifyStyle c =
          (FormatToken.StyleVariable (String.mk (trimChars c)), [])) := by
  refine ⟨?_, ?_, ?_, ?_⟩
  · intro he
    have hc : c = [] := by simpa using he
    subst hc
    rfl
  · intro hI
    have hrec := interp_reconstruct hI
    have hIe : isInterpStyle c = true := hI
    have hsplit : c.head? = some '{' ∧ c.getLast? = some '}' := by
      unfold isInterpStyle at hIe
      simpa only [Bool.and_eq_true, decide_eq_true_eq] using hIe
    have hcne : c.isEmpty = false := by
      cases c with
      | nil => simp at hsplit
      | cons a t => rfl
    have htrim : trimChars c = c :=
      trimChars_eq_self_of_ends hsplit.1 hsplit.2 (by decide) (by decide)
    simp only [codeClassifyStyle, processStyles, hIe, if_true]
    rw [show ('{' :: (c.drop 1).dropLast) ++ ['}'] = c from hrec]
    simp [tokenOfStyle, hcne, htrim]
  · intro hne hnI hsl
    have hsl' : is_style_list c = true := hsl
    have hnI' : isInterpStyle c = false := by
      cases hb : isInterpStyle c
      · rfl
      · exact absurd hb hnI
    have hne' : c.isEmpty = false := by
      cases hb : c.isEmpty
      · rfl
      · exact absurd hb hne
    simp [codeClassifyStyle, processStyles, hnI', tokenOfStyle, hne', hsl']
  · intro hne hnI hsl
    have hsl' : is_style_list c = false := by
      cases hb : is_style_list c
      · rfl
      · exact absurd hb hsl
    have hnI' : isInterpStyle c = false := by
      cases hb : isInterpStyle c
      · rfl
      · exact absurd hb hnI
    have hne' : c.isEmpty = false := by
      cases hb : c.isEmpty
      · rfl
      · exact absurd hb hne
    simp [codeClassifyStyle, processStyles, hnI', tokenOfStyle, hne', hsl']

/-- C1 counterexample: the content `" {x}"` (brace-wrapped only after
trimming).  The claim classifies it as an interpolation — a
`StyleVariable` for `x` with `x` recorded as used — but the code does not
trim before the brace test, classifies it as a plain style variable
carrying the trimmed content and records nothing. -/
theorem claim1_counterexample :
    codeClassifyStyle " {x}".data = (FormatToken.StyleVariable "{x}", [])
    ∧ specClassifyStyle " {x}".data =
        (FormatToken.StyleVariable "x", ["x"])
    ∧ codeClassifyStyle " {x}".data ≠ specClassifyStyle " {x}".data := by
  refine ⟨by decide, by decide, by decide⟩

/-- C1 witness: the amended theorem applied to the interpolated content
`{c}` and to the known style list `red, nope`. -/
theorem claim1_witness :
    codeClassifyStyle "{c}".data =
      (FormatToken.StyleVariable "{c}", ["c"])
    ∧ codeClassifyStyle "red, nope".data =
      (FormatToken.StyleChange ["red", "nope"], []) := by
  constructor
  · exact (claim1_amended "{c}".data).2.1 (by decide)
  · exact (claim1_amended "red, nope".data).2.2.1 (by decide) (by decide)
      (by decide)

/- ## Claim C2 -/

/-- C2: `ansi_code_for_style` emits `ESC[`, the SGR codes of the
recognised names in input order joined by `;`, then `m`; unknown names
are dropped silently; the name-to-code table is exactly the claimed one;
and the empty and the all-unknown list both give exactly `ESC[0m`. -/
theorem claim2_ansi_code :
    (∀ l : List String,
      ansi_code_for_style l =
        if (l.filterMap styleCode).isEmpty then "\x1B[0m"
        else "\x1B[" ++ String.intercalate ";" (l.filterMap styleCode) ++ "m")
    ∧ (∀ s : String, s ∉ knownStyleNames → styleCode s = none)
    ∧ styleCode "black" = some "30" ∧ styleCode "red" = some "31"
    ∧ styleCode "green" = some "32" ∧ styleCode "yellow" = some "33"
    ∧ styleCode "blue" = some "34" ∧ styleCode "magenta" = some "35"
    ∧ styleCode "cyan" = some "36" ∧ styleCode "white" = some "37"
    ∧ styleCode "bright_black" = some "90" ∧ styleCode "gray" = some "90"
    ∧ styleCode "bright_red" = some "91"
    ∧ styleCode "bright_green" = some "92"
    ∧ styleCode "bright_yellow" = some "93"
    ∧ styleCode "bright_blue" = some "94"
    ∧ styleCode "bright_magenta" = some "95"
    ∧ styleCode "bright_cyan" = some "96"
    ∧ styleCode "bright_white" = some "97"
    ∧ styleCode "bold" = some "1" ∧ styleCode "italic" = some "3"
    ∧ styleCode "underline" = some "4" ∧ styleCode "dimmed" = some "2"
    ∧ styleCode "blink" = some "5" ∧ styleCode "reversed" = some "7"
    ∧ styleCode "hidden" = some "8" ∧ styleCode "strikethrough" = some "9"
    ∧ ansi_code_for_style [] = "\x1B[0m"
    ∧ ansi_code_for_style ["unknownterm"] = "\x1B[0m"
    ∧ ansi_code_for_style ["red", "bold"] = "\x1B[31;1m" := by
  refine ⟨?_, ?_, ?_⟩
  · intro l
    cases l with
    | nil => rfl
    | cons h t => simp [ansi_code_for_style]
  · intro s hs
    unfold styleCode
    split <;> simp_all [knownStyleNames]
  · decide

/-- C2 witness: the table theorem applied to a concrete unknown name. -/
theorem claim2_witness : styleCode "unknownterm" = none :=
  claim2_ansi_code.2.1 "unknownterm" (by decide)

/- ## Claim C8 -/

/-- C8: the array formatter dispatches on the quote-aware maximal
nesting depth only for representations that start with `[`; any other
representation is returned unchanged whatever its depth.  Depth 0 or 1
returns the representation unchanged, depth 2 applies the three textual
rewrites of `format_2d_array`, depth 3 or more recursively splits at
first-level bracket boundaries (`format_nd_array`); on a three-level
nested sequence this produces one element per line, the indentation
growing by two spaces per level and each closing bracket aligned with the
indent of its opening level. -/
theorem claim8_amended :
    (∀ s : String, s.data.head? ≠ some '[' → format_container s = some s)
    ∧ (∀ s : String, s.data.head? = some '[' →
        count_nesting_depth s.data = some 0 → format_container s = some s)
    ∧ (∀ s : String, s.data.head? = some '[' →
        count_nesting_depth s.data = some 1 → format_container s = some s)
    ∧ (∀ s : String, s.data.head? = some '[' →
        count_nesting_depth s.data = some 2 →
        format_container s = some (format_2d_array s))
    ∧ (∀ (s : String) (d : Nat), s.data.head? = some '[' →
        count_nesting_depth s.data = some (d + 3) →
        format_container s = some (String.mk (format_nd_array s.data)))
    ∧ format_container "[[[1, 2], [3, 4]], [[5, 6], [7, 8]]]" =
        some "[\n  [\n    [1, 2],\n    [3, 4]\n  ],\n  [\n    [5, 6],\n    [7, 8]\n  ]\n]"
    ∧ format_container "[[1, 2], [3, 4]]" =
        some "[\n  [1, 2],\n  [3, 4]\n]" := by
  refine ⟨?_, ?_, ?_, ?_, ?_, by decide, by decide⟩
  · intro s h
    simp [format_container, h]
  · intro s h hd
    simp [format_container, h, hd]
  · intro s h hd
    simp [format_container, h, hd]
  · intro s h hd
    simp [format_container, h, hd]
  · intro s d h hd
    simp [format_container, h, hd]

/-- C8 counterexample: a map-shaped representation of depth 2 (claimed
to receive the three depth-2 rewrites, which would alter it) is returned
unchanged, because the implementation first requires the representation
to start with `[`. -/
theorem claim8_counterexample :
    count_nesting_depth "\x7b\"a\": [[1], [2]]\x7d".data = some 2
    ∧ format_container "\x7b\"a\": [[1], [2]]\x7d" =
        some "\x7b\"a\": [[1], [2]]\x7d"
    ∧ format_2d_array "\x7b\"a\": [[1], [2]]\x7d" ≠
        "\x7b\"a\": [[1], [2]]\x7d" := by
  refine ⟨by decide, by decide, by decide⟩

/-- C8 witness: the amended dispatch applied to a depth-1 and a depth-2
concrete representation. -/
theorem claim8_witness :
    format_container "[1, 2]" = some "[1, 2]"
    ∧ format_container "[[4, 3], [2, 1]]" =
        some (format_2d_array "[[4, 3], [2, 1]]") := by
  constructor
  · exact claim8_amended.2.2.1 "[1, 2]" (by decide) (by decide)
  · exact claim8_amended.2.2.2.1 "[[4, 3], [2, 1]]" (by decide) (by decide)

/- ## Claim C9 -/

theorem renderLoop_eq (R : Resolver) (ts : List FormatToken) :
    ∀ (acc : List Char) (cur : List String),
      renderLoop R acc cur ts =
        acc ++ (ts.map (tokenPiece R)).flatten ++ "\x1B[0m".data := by
  induction ts with
  | nil => intro acc cur; simp [renderLoop]
  | cons t ts ih =>
    intro acc cur
    cases t with
    | StyleChange specs => simp [renderLoop, ih, tokenPiece]
    | StyleReset => simp [renderLoop, ih, tokenPiece]
    | Text c =>
      by_cases hc : c.isEmpty
      · have hdata : c = "" := (String.isEmpty_iff c).mp hc
        subst hdata
        simp [renderLoop, ih, tokenPiece]
      · simp [renderLoop, hc, ih, tokenPiece]
    | Variable n f a => simp [renderLoop, ih, tokenPiece]
    | StyleVariable n => simp [renderLoop, ih, tokenPiece]

/-- C9: the buffer the generated code assembles is the concatenation of
one piece per token followed by one unconditional reset sequence; the
piece of a `StyleChange` or `StyleVariable` token is the reset sequence
immediately followed by the freshly resolved ANSI code (full
reset-then-apply, no stacking), the piece of a `StyleReset` is the reset
sequence; consequently the buffer always ends with the reset sequence. -/
theorem claim9_reset_discipline (R : Resolver) (ts : List FormatToken) :
    renderTokens R ts = (ts.map (tokenPiece R)).flatten ++ "\x1B[0m".data
    ∧ (∀ specs, tokenPiece R (FormatToken.StyleChange specs) =
        "\x1B[0m".data ++ (ansi_code_for_style specs).data)
    ∧ (∀ n, tokenPiece R (FormatToken.StyleVariable n) =
        "\x1B[0m".data ++
          (ansi_code_for_style
            ((splitOnChar ',' (R.styleVal n).data).map
              (fun s => String.mk (trimChars s)))).data)
    ∧ tokenPiece R FormatToken.StyleReset = "\x1B[0m".data
    ∧ ∃ p, renderTokens R ts = p ++ "\x1B[0m".data := by
  refine ⟨?_, fun _ => rfl, fun _ => rfl, rfl, ?_⟩
  · simpa using renderLoop_eq R ts [] []
  · exact ⟨(ts.map (tokenPiece R)).flatten, by simpa using renderLoop_eq R ts [] []⟩

/- ## Merge and gap-filling lemmas (claims C3, C4) -/

theorem startSorted_cons_cons (a b : Nat × Nat × FormatToken)
    (t : List (Nat × Nat × FormatToken)) :
    startSorted (a :: b :: t) = (decide (a.1 ≤ b.1) && startSorted (b :: t)) :=
  rfl

theorem startSorted_insertByStart (m : Nat × Nat × FormatToken) :
    ∀ l, startSorted l = true → startSorted (insertByStart m l) = true := by
  intro l
  induction l with
  | nil => intro _; rfl
  | cons x xs ih =>
    intro h
    unfold insertByStart
    by_cases hm : m.1 < x.1
    · rw [if_pos hm, startSorted_cons_cons, h]
      simp [Nat.le_of_lt hm]
    · rw [if_neg hm]
      cases xs with
      | nil =>
        rw [show insertByStart m [] = [m] from rfl, startSorted_cons_cons]
        simp [Nat.le_of_not_lt hm, startSorted]
      | cons y ys =>
        rw [startSorted_cons_cons] at h
        have hxy : x.1 ≤ y.1 ∧ startSorted (y :: ys) = true := by
          simpa using h
        have hins := ih hxy.2
        unfold insertByStart at hins ⊢
        by_cases hmy : m.1 < y.1
        · rw [if_pos hmy] at hins ⊢
          rw [startSorted_cons_cons, hins]
          simp [Nat.le_of_not_lt hm]
        · rw [if_neg hmy] at hins ⊢
          rw [startSorted_cons_cons, hins]
          simp [hxy.1]

theorem startSorted_sortByStart : ∀ l, startSorted (sortByStart l) = true := by
  intro l
  induction l with
  | nil => rfl
  | cons m ms ih => exact startSorted_insertByStart m _ ih

theorem mem_insertByStart {x m : Nat × Nat × FormatToken} :
    ∀ {l}, x ∈ insertByStart m l ↔ x = m ∨ x ∈ l := by
  intro l
  induction l with
  | nil => simp [insertByStart]
  | cons y ys ih =>
    unfold insertByStart
    by_cases hm : m.1 < y.1
    · simp only [if_pos hm, List.mem_cons]
      try tauto
    · simp only [if_neg hm, List.mem_cons, ih]
      try tauto

theorem mem_sortByStart {x : Nat × Nat × FormatToken} :
    ∀ {l}, x ∈ sortByStart l ↔ x ∈ l := by
  intro l
  induction l with
  | nil => simp [sortByStart]
  | cons m ms ih =>
    simp only [sortByStart, mem_insertByStart, ih, List.mem_cons]

theorem fillTokens_mem {cs : List Char} {t : FormatToken} :
    ∀ {ms : List (Nat × Nat × FormatToken)} {last : Nat},
      t ∈ fillTokens cs last ms →
      (∃ c, t = FormatToken.Text c) ∨ ∃ st en, (st, en, t) ∈ ms := by
  intro ms
  induction ms with
  | nil =>
    intro last h
    unfold fillTokens at h
    by_cases hl : last < cs.length
    · rw [if_pos hl] at h
      exact Or.inl ⟨_, List.mem_singleton.mp h⟩
    · rw [if_neg hl] at h
      simp at h
  | cons m rest ih =>
    intro last h
    obtain ⟨st, en, tok⟩ := m
    unfold fillTokens at h
    rw [List.mem_append] at h
    rcases h with h | h
    · by_cases hl : st > last
      · rw [if_pos hl] at h
        exact Or.inl ⟨_, List.mem_singleton.mp h⟩
      · rw [if_neg hl] at h
        simp at h
    · rcases List.mem_cons.mp h with h | h
      · subst h
        exact Or.inr ⟨st, en, List.mem_cons_self _ _⟩
      · rcases ih h with h' | ⟨st', en', h'⟩
        · exact Or.inl h'
        · exact Or.inr ⟨st', en', List.mem_cons_of_mem _ h'⟩

theorem mem_fillTokens {cs : List Char} {t : FormatToken} {st en : Nat} :
    ∀ {ms : List (Nat × Nat × FormatToken)} {last : Nat},
      (st, en, t) ∈ ms → t ∈ fillTokens cs last ms := by
  intro ms
  induction ms with
  | nil => intro last h; simp at h
  | cons m rest ih =>
    intro last h
    obtain ⟨st', en', tok⟩ := m
    unfold fillTokens
    rw [List.mem_append]
    rcases List.mem_cons.mp h with h | h
    · have ht : t = tok := by
        obtain ⟨-, -, h3⟩ : st = st' ∧ en = en' ∧ t = tok := by
          simpa [Prod.ext_iff] using h
        exact h3
      rw [ht]
      exact Or.inr (List.mem_cons_self _ _)
    · exact Or.inr (List.mem_cons_of_mem _ (ih h))

theorem textsOf_text_cons (c : String) (ts : List FormatToken) :
    textsOf (FormatToken.Text c :: ts) = c :: textsOf ts := rfl

theorem fillTokens_nil (cs : List Char) (last : Nat) :
    fillTokens cs last [] =
      if last < cs.length then
        [FormatToken.Text (String.mk (sliceCs cs last cs.length))]
      else [] := rfl

theorem fillTokens_cons (cs : List Char) (last st en : Nat)
    (tok : FormatToken) (rest : List (Nat × Nat × FormatToken)) :
    fillTokens cs last ((st, en, tok) :: rest) =
      (if st > last then [FormatToken.Text (String.mk (sliceCs cs last st))]
       else []) ++ tok :: fillTokens cs en rest := rfl

theorem gapsList_nil (cs : List Char) (last : Nat) :
    gapsList cs last [] =
      if last < cs.length then [String.mk (sliceCs cs last cs.length)]
      else [] := rfl

theorem gapsList_cons (cs : List Char) (last st en : Nat)
    (tok : FormatToken) (rest : List (Nat × Nat × FormatToken)) :
    gapsList cs last ((st, en, tok) :: rest) =
      (if st > last then [String.mk (sliceCs cs last st)] else []) ++
        gapsList cs en rest := rfl

theorem textsOf_fillTokens {cs : List Char} :
    ∀ {ms : List (Nat × Nat × FormatToken)} {last : Nat},
      (∀ p ∈ ms, ∀ c, p.2.2 ≠ FormatToken.Text c) →
      textsOf (fillTokens cs last ms) = gapsList cs last ms := by
  intro ms
  induction ms with
  | nil =>
    intro last _
    rw [fillTokens_nil, gapsList_nil]
    by_cases hl : last < cs.length
    · rw [if_pos hl, if_pos hl]
      rfl
    · rw [if_neg hl, if_neg hl]
      rfl
  | cons m rest ih =>
    intro last hnt
    obtain ⟨st, en, tok⟩ := m
    have htok : ∀ c, tok ≠ FormatToken.Text c := fun c =>
      hnt (st, en, tok) (List.mem_cons_self _ _) c
    have hrest : ∀ p ∈ rest, ∀ c, p.2.2 ≠ FormatToken.Text c := fun p hp =>
      hnt p (List.mem_cons_of_mem _ hp)
    have hmid : textsOf (tok :: fillTokens cs en rest) =
        gapsList cs en rest := by
      cases tok with
      | Text c => exact absurd rfl (htok c)
      | StyleChange specs => simpa [textsOf] using ih hrest
      | StyleReset => simpa [textsOf] using ih hrest
      | Variable n f a => simpa [textsOf] using ih hrest
      | StyleVariable n => simpa [textsOf] using ih hrest
    rw [fillTokens_cons, gapsList_cons]
    by_cases hl : st > last
    · rw [if_pos hl, if_pos hl, List.singleton_append, List.singleton_append,
        textsOf_text_cons, hmid]
    · rw [if_neg hl, if_neg hl, List.nil_append, List.nil_append, hmid]

theorem sliceCs_append_drop {cs : List Char} {a b : Nat} (h : a ≤ b) :
    sliceCs cs a b ++ cs.drop b = cs.drop a := by
  unfold sliceCs
  have hb : cs.drop b = (cs.drop a).drop (b - a) := by
    rw [List.drop_drop]
    congr 1
    omega
  rw [hb]
  exact List.take_append_drop (b - a) (cs.drop a)

theorem fillCover_eq {cs : List Char} :
    ∀ {ms : List (Nat × Nat × FormatToken)} {last : Nat},
      spanChainFrom cs.length last ms = true →
      fillCover cs last ms = cs.drop last := by
  intro ms
  induction ms with
  | nil =>
    intro last h
    have hlen : last ≤ cs.length := by
      simpa [spanChainFrom] using h
    unfold fillCover sliceCs
    apply List.take_of_length_le
    simp
  | cons m rest ih =>
    intro last h
    obtain ⟨st, en, tok⟩ := m
    have hc : (last ≤ st ∧ st ≤ en) ∧
        spanChainFrom cs.length en rest = true := by
      simpa [spanChainFrom, Bool.and_eq_true, decide_eq_true_eq] using h
    unfold fillCover
    rw [ih hc.2]
    by_cases hgt : st > last
    · rw [if_pos hgt, List.append_assoc, sliceCs_append_drop hc.1.2,
        sliceCs_append_drop hc.1.1]
    · have hst : st = last := by
        have := hc.1.1
        omega
      subst hst
      rw [if_neg hgt, List.nil_append, sliceCs_append_drop hc.1.2]

theorem tokenOfStyle_ne_text (c : List Char) (v : Bool) (s : String) :
    tokenOfStyle c v ≠ FormatToken.Text s := by
  unfold tokenOfStyle
  by_cases h1 : c.isEmpty
  · simp [h1]
  · by_cases h2 : v
    · simp [h1, h2]
    · simp [h1, h2]

theorem tokenOfStyle_ne_var (c : List Char) (v : Bool) (n : String)
    (f : Option String) (a : Option (List String)) :
    tokenOfStyle c v ≠ FormatToken.Variable n f a := by
  unfold tokenOfStyle
  by_cases h1 : c.isEmpty
  · simp [h1]
  · by_cases h2 : v
    · simp [h1, h2]
    · simp [h1, h2]

theorem processVars_mem
    {sm : List (Nat × Nat × List Char × Bool)}
    {p : Nat × Nat × FormatToken} :
    ∀ {vs}, p ∈ (processVars sm vs).1 →
      ∃ st en e fm ar, (st, en, e, fm, ar) ∈ vs ∧
        isSkippedExpr sm e = false ∧
        p = (st, en, FormatToken.Variable (String.mk e) (fm.map String.mk)
          (ar.map argsSplit)) := by
  intro vs
  induction vs with
  | nil => intro h; simp [processVars] at h
  | cons v rest ih =>
    intro h
    obtain ⟨st, en, e, fm, ar⟩ := v
    unfold processVars at h
    by_cases hsk : isSkippedExpr sm e
    · rw [if_pos hsk] at h
      obtain ⟨st', en', e', fm', ar', hmem, hns, hp⟩ := ih h
      exact ⟨st', en', e', fm', ar', List.mem_cons_of_mem _ hmem, hns, hp⟩
    · rw [if_neg hsk] at h
      rcases List.mem_cons.mp h with h | h
      · exact ⟨st, en, e, fm, ar, List.mem_cons_self _ _,
          Bool.eq_false_iff.mpr hsk, h⟩
      · obtain ⟨st', en', e', fm', ar', hmem, hns, hp⟩ := ih h
        exact ⟨st', en', e', fm', ar', List.mem_cons_of_mem _ hmem, hns, hp⟩

theorem mem_processVars
    {sm : List (Nat × Nat × List Char × Bool)}
    {st en : Nat} {e : List Char} {fm ar : Option (List Char)} :
    ∀ {vs}, (st, en, e, fm, ar) ∈ vs → isSkippedExpr sm e = false →
      (st, en, FormatToken.Variable (String.mk e) (fm.map String.mk)
        (ar.map argsSplit)) ∈ (processVars sm vs).1 := by
  intro vs
  induction vs with
  | nil => intro h; simp at h
  | cons v rest ih =>
    intro h hns
    obtain ⟨st', en', e', fm', ar'⟩ := v
    unfold processVars
    rcases List.mem_cons.mp h with h | h
    · obtain ⟨h1, h2, h3, h4, h5⟩ :
          st = st' ∧ en = en' ∧ e = e' ∧ fm = fm' ∧ ar = ar' := by
        simpa [Prod.ext_iff] using h
      subst h1; subst h2; subst h3; subst h4; subst h5
      rw [if_neg (by rw [hns]; simp)]
      exact List.mem_cons_self _ _
    · have hmem := ih h hns
      by_cases hsk : isSkippedExpr sm e'
      · rw [if_pos hsk]
        exact hmem
      · rw [if_neg hsk]
        exact List.mem_cons_of_mem _ hmem

theorem allMatchesOf_not_text (cs : List Char) :
    ∀ p ∈ allMatchesOf cs, ∀ c, p.2.2 ≠ FormatToken.Text c := by
  intro p hp c
  unfold allMatchesOf at hp
  rw [mem_sortByStart, List.mem_append] at hp
  rcases hp with hp | hp
  · obtain ⟨m, _, hm⟩ := List.mem_map.mp hp
    rw [← hm]
    exact tokenOfStyle_ne_text _ _ _
  · obtain ⟨st', en', e', fm', ar', _, _, hp'⟩ := processVars_mem hp
    rw [hp']
    simp

/- ## Claim C3 -/

/-- C3: the merged match list of a template is always sorted by starting
offset; the `Text` tokens inserted by the merge hold exactly the gap
slices of the template; and whenever the match spans are well-placed
(each marker ends before the next starts), the gap slices and the marker
spans tile the template exactly, so no character belongs to two tokens;
the concrete template `Hello {name}` lexes to exactly a text token and a
variable token with `name` recorded as used. -/
theorem claim3_amended :
    (∀ cs : List Char, startSorted (allMatchesOf cs) = true)
    ∧ (∀ cs : List Char,
        textsOf (fillTokens cs 0 (allMatchesOf cs)) =
          gapsList cs 0 (allMatchesOf cs))
    ∧ (∀ (cs : List Char) (ms : List (Nat × Nat × FormatToken)) (last : Nat),
        spanChainFrom cs.length last ms = true →
        fillCover cs last ms = cs.drop last)
    ∧ parse_format_string "Hello {name}" =
        ([FormatToken.Text "Hello ", FormatToken.Variable "name" none none],
          ["name"]) := by
  refine ⟨?_, ?_, ?_, by decide⟩
  · intro cs
    unfold allMatchesOf
    exact startSorted_sortByStart _
  · intro cs
    exact textsOf_fillTokens (allMatchesOf_not_text cs)
  · intro cs ms last h
    exact fillCover_eq h

/-- C3 counterexample: in `@(x{y}z)` the variable marker `{y}` lies
inside the non-interpolated style marker, the two match spans overlap,
and the characters `z)` of the style marker also reappear in a trailing
text token — so the characters of `{y}` and of `z)` each belong to two
tokens, refuting the no-double-ownership part of the claim. -/
theorem claim3_counterexample :
    allMatchesOf "@(x{y}z)".data =
      [(0, 8, FormatToken.StyleVariable "x{y}z"),
        (3, 6, FormatToken.Variable "y" none none)]
    ∧ spansDisjoint (allMatchesOf "@(x{y}z)".data) = false
    ∧ (parse_format_string "@(x{y}z)").1 =
      [FormatToken.StyleVariable "x{y}z",
        FormatToken.Variable "y" none none, FormatToken.Text "z)"] := by
  refine ⟨by decide, by decide, by decide⟩

/-- C3 witness: the tiling part of the amended theorem applied to the
match list of `Hello {name}`, whose spans are well-placed. -/
theorem claim3_witness :
    fillCover "Hello {name}".data 0 (allMatchesOf "Hello {name}".data) =
      "Hello {name}".data := by
  have h := claim3_amended.2.2.1 "Hello {name}".data
    (allMatchesOf "Hello {name}".data) 0 (by decide)
  simpa using h

/- ## Claim C4 -/

/-- C4: a variable marker whose expression reproduces a brace-interpolated
style identifier is skipped wherever it occurs — no `Variable` token with
that name is ever emitted, position is not consulted — while a variable
marker whose expression is not skipped is always emitted as a `Variable`
token. -/
theorem claim4_amended :
    (∀ (s : String) (e : List Char) (f : Option String)
        (a : Option (List String)),
      isSkippedExpr (processStyles (styleScan s.data)).1 e = true →
      FormatToken.Variable (String.mk e) f a ∉ (parse_format_string s).1)
    ∧ (∀ (s : String) (st en : Nat) (e : List Char)
        (fm ar : Option (List Char)),
      (st, en, e, fm, ar) ∈ varScan s.data →
      isSkippedExpr (processStyles (styleScan s.data)).1 e = false →
      FormatToken.Variable (String.mk e) (fm.map String.mk)
        (ar.map argsSplit) ∈ (parse_format_string s).1) := by
  constructor
  · intro s e f a hsk hmem
    have hmem' : FormatToken.Variable (String.mk e) f a ∈
        fillTokens s.data 0 (allMatchesOf s.data) := hmem
    rcases fillTokens_mem hmem' with ⟨c, hc⟩ | ⟨st, en, hin⟩
    · simp at hc
    · unfold allMatchesOf at hin
      rw [mem_sortByStart, List.mem_append] at hin
      rcases hin with hin | hin
      · obtain ⟨m, _, hm⟩ := List.mem_map.mp hin
        have hcontr : tokenOfStyle m.2.2.1 m.2.2.2 =
            FormatToken.Variable (String.mk e) f a := by
          obtain ⟨-, -, h3⟩ : m.1 = st ∧ m.2.1 = en ∧
              tokenOfStyle m.2.2.1 m.2.2.2 =
                FormatToken.Variable (String.mk e) f a := by
            simpa [Prod.ext_iff] using hm
          exact h3
        exact tokenOfStyle_ne_var _ _ _ _ _ hcontr
      · obtain ⟨st', en', e', fm', ar', hraw, hns, hp⟩ := processVars_mem hin
        have h3 : FormatToken.Variable (String.mk e) f a =
            FormatToken.Variable (String.mk e') (fm'.map String.mk)
              (ar'.map argsSplit) := by
          obtain ⟨-, -, h3⟩ : st = st' ∧ en = en' ∧
              FormatToken.Variable (String.mk e) f a =
                FormatToken.Variable (String.mk e') (fm'.map String.mk)
                  (ar'.map argsSplit) := by
            simpa [Prod.ext_iff] using hp
          exact h3
        have he : String.mk e = String.mk e' := by
          injection h3
        have he' : e = e' := by
          injection he
        rw [← he'] at hns
        rw [hsk] at hns
        exact Bool.noConfusion hns
  · intro s st en e fm ar hraw hns
    show FormatToken.Variable (String.mk e) (fm.map String.mk)
      (ar.map argsSplit) ∈ fillTokens s.data 0 (allMatchesOf s.data)
    apply mem_fillTokens
    show (st, en, FormatToken.Variable (String.mk e) (fm.map String.mk)
      (ar.map argsSplit)) ∈ allMatchesOf s.data
    unfold allMatchesOf
    rw [mem_sortByStart, List.mem_append]
    exact Or.inr (mem_processVars hraw hns)

/-- C4 counterexample: in `@({c}) {c}` the second, plain `{c}` lies
outside the style marker yet is not emitted as a `Variable` token — the
skip test compares only the expression text, not the position — its text
surfacing in a literal `Text` token instead. -/
theorem claim4_counterexample :
    (parse_format_string "@({c}) {c}").1 =
      [FormatToken.StyleVariable "{c}", FormatToken.Text " {c}"]
    ∧ FormatToken.Variable "c" none none ∉
        (parse_format_string "@({c}) {c}").1 := by
  refine ⟨by decide, by decide⟩

/-- C4 witness: the amended theorem applied to `@({c}) {c}` (the plain
`{c}` is suppressed) and to `@({c}) {d}` (a different identifier is still
emitted). -/
theorem claim4_witness :
    FormatToken.Variable "c" none none ∉ (parse_format_string "@({c}) {c}").1
    ∧ FormatToken.Variable "d" none none ∈
        (parse_format_string "@({c}) {d}").1 := by
  constructor
  · exact claim4_amended.1 "@({c}) {c}" "c".data none none (by decide)
  · exact claim4_amended.2 "@({c}) {d}" 7 10 "d".data none none
      (by decide) (by decide)

/- ## Quote-masking lemmas (claim C5) -/

theorem quoteState_append (b : Bool) (xs ys : List Char) :
    quoteState b (xs ++ ys) = quoteState (quoteState b xs) ys := by
  induction xs generalizing b with
  | nil => rfl
  | cons c cs ih => simp [quoteState, ih]

theorem maskAux_append (xs ys : List Char) (b : Bool) :
    maskAux b (xs ++ ys) = maskAux b xs ++ maskAux (quoteState b xs) ys := by
  induction xs generalizing b with
  | nil => rfl
  | cons c cs ih => simp [maskAux, quoteState, ih]

theorem maskChar_eq_quote_iff (q : Bool) (c : Char) :
    maskChar q c = '"' ↔ c = '"' := by
  unfold maskChar
  by_cases h : c = '"'
  · simp [h]
  · by_cases hq : q
    · simp [h, hq]
    · simp [h, hq]

theorem mem_quote_maskAux (l : List Char) :
    ∀ q, '"' ∈ maskAux q l ↔ '"' ∈ l := by
  induction l with
  | nil => intro q; rfl
  | cons c cs ih =>
    intro q
    simp only [maskAux, List.mem_cons, ih]
    constructor
    · rintro (h | h)
      · exact Or.inl ((maskChar_eq_quote_iff q c).mp h.symm).symm
      · exact Or.inr h
    · rintro (h | h)
      · exact Or.inl ((maskChar_eq_quote_iff q c).mpr h.symm).symm
      · exact Or.inr h

theorem maskAux_id_of_no_quote {l : List Char} (h : '"' ∉ l) :
    maskAux false l = l := by
  induction l with
  | nil => rfl
  | cons c cs ih =>
    have hc : c ≠ '"' := fun hc => h (hc ▸ List.mem_cons_self c cs)
    have hcs : '"' ∉ cs := fun hm => h (List.mem_cons_of_mem _ hm)
    simp [maskAux, maskChar, quoteFlip, hc, ih hcs]

theorem trimChars_nil_iff (l : List Char) :
    trimChars l = [] ↔ ∀ c ∈ l, Char.isWhitespace c := by
  unfold trimChars trimL
  constructor
  · intro h c hc
    have h1 : ∀ x ∈ ((l.reverse.dropWhile Char.isWhitespace).reverse), Char.isWhitespace x := by
      intro x hx
      have := List.dropWhile_eq_nil_iff.mp h
      exact this x hx
    have h2 : ∀ x ∈ l.reverse.dropWhile Char.isWhitespace, Char.isWhitespace x := by
      intro x hx
      exact h1 x (List.mem_reverse.mpr hx)
    have h3 : ∀ x ∈ l.reverse, Char.isWhitespace x := by
      intro x hx
      rw [← List.takeWhile_append_dropWhile (p := Char.isWhitespace)
        (l := l.reverse)] at hx
      rcases List.mem_append.mp hx with hx | hx
      · exact List.mem_takeWhile_imp hx
      · exact h2 x hx
    exact h3 c (List.mem_reverse.mpr hc)
  · intro h
    have h1 : l.reverse.dropWhile Char.isWhitespace = [] :=
      List.dropWhile_eq_nil_iff.mpr (fun x hx => h x (List.mem_reverse.mp hx))
    rw [h1]
    rfl

theorem trim_isEmpty_mask (elem : List Char) :
    (trimChars (maskAux false elem)).isEmpty = (trimChars elem).isEmpty := by
  by_cases hq : '"' ∈ elem
  · have h1 : trimChars elem ≠ [] := by
      rw [Ne, trimChars_nil_iff]
      intro h
      exact absurd (h '"' hq) (by decide)
    have h2 : trimChars (maskAux false elem) ≠ [] := by
      rw [Ne, trimChars_nil_iff]
      intro h
      exact absurd (h '"' ((mem_quote_maskAux elem false).mpr hq)) (by decide)
    rw [List.isEmpty_eq_false.mpr h1, List.isEmpty_eq_false.mpr h2]
  · rw [maskAux_id_of_no_quote hq]

theorem cndAux_mask (cs : List Char) :
    ∀ (q : Bool) (d maxd : Nat),
      cndAux (maskAux q cs) q d maxd = cndAux cs q d maxd := by
  induction cs with
  | nil => intro q d maxd; rfl
  | cons c cs ih =>
    intro q d maxd
    by_cases hc : c = '"'
    · subst hc
      simp [maskAux, maskChar, quoteFlip, cndAux, ih]
    · cases q with
      | true =>
        have h1 : maskChar true c = '_' := by simp [maskChar, hc]
        have h2 : quoteFlip true c = true := by simp [quoteFlip, hc]
        simp [maskAux, h1, h2, cndAux, hc, ih]
      | false =>
        have h1 : maskChar false c = c := by simp [maskChar, hc]
        have h2 : quoteFlip false c = false := by simp [quoteFlip, hc]
        simp only [maskAux, h1, h2]
        unfold cndAux
        simp only [hc, if_false, if_neg hc]
        by_cases hb : c = '['
        · simp [hb, ih]
        · by_cases hb2 : c = ']'
          · simp [hb, hb2, ih]
          · simp [hb, hb2, ih]

theorem ffbAux_mask (cs : List Char) :
    ∀ (i : Nat) (level : Int) (inq : Bool) (start : Nat),
      ffbAux (maskAux inq cs) i level inq start = ffbAux cs i level inq start := by
  induction cs with
  | nil => intro i level inq start; rfl
  | cons c cs ih =>
    intro i level inq start
    by_cases hc : c = '"'
    · subst hc
      simp [maskAux, maskChar, quoteFlip, ffbAux, ih]
    · cases inq with
      | true =>
        have h1 : maskChar true c = '_' := by simp [maskChar, hc]
        have h2 : quoteFlip true c = true := by simp [quoteFlip, hc]
        simp [maskAux, h1, h2, ffbAux, hc, ih]
      | false =>
        have h1 : maskChar false c = c := by simp [maskChar, hc]
        have h2 : quoteFlip false c = false := by simp [quoteFlip, hc]
        simp only [maskAux, h1, h2]
        unfold ffbAux
        simp only [hc, if_false, if_neg hc]
        by_cases hb : c = '['
        · simp [hb, ih]
        · by_cases hb2 : c = ']'
          · simp [hb, hb2, ih]
          · simp [hb, hb2, ih]

theorem splitRowAux_step (c : Char) (cs : List Char) (q : Bool) (lvl : Int)
    (elem : List Char) :
    splitRowAux (c :: cs) q lvl elem =
      if c = '"' then splitRowAux cs (!q) lvl (elem ++ [c])
      else if c = '[' && !q then splitRowAux cs q (lvl + 1) (elem ++ [c])
      else if c = ']' && !q then splitRowAux cs q (lvl - 1) (elem ++ [c])
      else if c = ',' && !q && lvl = 0 then
        String.mk (trimChars elem) :: splitRowAux cs q lvl []
      else splitRowAux cs q lvl (elem ++ [c]) := rfl

theorem splitRowAux_mask_len (cs : List Char) :
    ∀ (q : Bool) (lvl : Int) (elem : List Char), quoteState false elem = q →
      (splitRowAux (maskAux q cs) q lvl (maskAux false elem)).length =
        (splitRowAux cs q lvl elem).length := by
  induction cs with
  | nil =>
    intro q lvl elem _
    simp only [maskAux, splitRowAux]
    rw [trim_isEmpty_mask elem]
    by_cases h : (trimChars elem).isEmpty
    · rw [if_pos h, if_pos h]
    · rw [if_neg h, if_neg h]
      rfl
  | cons c cs ih =>
    intro q lvl elem hq
    have happ : maskAux false elem ++ [maskChar q c] =
        maskAux false (elem ++ [c]) := by
      rw [maskAux_append, hq]
      rfl
    have hstate : quoteState false (elem ++ [c]) = quoteFlip q c := by
      rw [quoteState_append, hq]
      rfl
    rw [show maskAux q (c :: cs) =
      maskChar q c :: maskAux (quoteFlip q c) cs from rfl]
    rw [splitRowAux_step, splitRowAux_step]
    by_cases hc : c = '"'
    · subst hc
      have hmc : maskChar q '"' = '"' := by simp [maskChar]
      have hqf : quoteFlip q '"' = !q := by simp [quoteFlip]
      rw [hmc, if_pos rfl, if_pos rfl, hqf]
      have hih := ih (!q) lvl (elem ++ ['"']) (by rw [hstate, hqf])
      rw [← happ, hmc] at hih
      exact hih
    · cases q with
      | true =>
        have hmc : maskChar true c = '_' := by simp [maskChar, hc]
        have hqf : quoteFlip true c = true := by simp [quoteFlip, hc]
        have happ2 := happ
        rw [hmc] at happ2
        rw [hmc, hqf]
        simp only [show (('_' : Char) = '"') = False from by simp,
          if_false, Bool.not_true, Bool.and_false, Bool.false_and,
          if_neg hc]
        rw [happ2]
        exact ih true lvl (elem ++ [c]) (by rw [hstate, hqf])
      | false =>
        have hmc : maskChar false c = c := by simp [maskChar, hc]
        have hqf : quoteFlip false c = false := by simp [quoteFlip, hc]
        have happ2 := happ
        rw [hmc] at happ2
        rw [hmc, hqf]
        have hnext : quoteState false (elem ++ [c]) = false := by
          rw [hstate, hqf]
        rw [if_neg hc, if_neg hc]
        by_cases hb : c = '['
        · have hcb : (c = '[' && !false) = true := by simp [hb]
          rw [if_pos hcb, if_pos hcb, happ2]
          exact ih false (lvl + 1) (elem ++ [c]) hnext
        · have hcb : ¬ ((c = '[' && !false) = true) := by simp [hb]
          rw [if_neg hcb, if_neg hcb]
          by_cases hb2 : c = ']'
          · have hcb2 : (c = ']' && !false) = true := by simp [hb2]
            rw [if_pos hcb2, if_pos hcb2, happ2]
            exact ih false (lvl - 1) (elem ++ [c]) hnext
          · have hcb2 : ¬ ((c = ']' && !false) = true) := by simp [hb2]
            rw [if_neg hcb2, if_neg hcb2]
            by_cases hb3 : c = ',' ∧ lvl = 0
            · have hcb3 : (c = ',' && !false && lvl = 0) = true := by
                simp [hb3.1, hb3.2]
              rw [if_pos hcb3, if_pos hcb3]
              simp only [List.length_cons]
              have hih := ih false lvl [] rfl
              simp only [maskAux] at hih
              omega
            · have hcb3 : ¬ ((c = ',' && !false && lvl = 0) = true) := by
                simp only [Bool.not_false, Bool.and_true, Bool.and_eq_true,
                  decide_eq_true_eq]
                intro hx
                exact hb3 ⟨hx.1, hx.2⟩
              rw [if_neg hcb3, if_neg hcb3, happ2]
              exact ih false lvl (elem ++ [c]) hnext

/-- Depth counting sees only the quote mask of its input. -/
theorem count_nesting_depth_mask (cs : List Char) :
    count_nesting_depth (maskQuoted cs) = count_nesting_depth cs :=
  cndAux_mask cs false 0 0

/-- Bracket matching sees only the quote mask of its input. -/
theorem find_first_level_brackets_mask (cs : List Char) :
    find_first_level_brackets (maskQuoted cs) = find_first_level_brackets cs :=
  ffbAux_mask cs 0 0 false 0

/-- Element splitting produces the same number of elements on the quote
mask of a row interior. -/
theorem splitRowElements_mask_len (r : List Char) :
    (splitRowElements (maskQuoted r)).length = (splitRowElements r).length :=
  splitRowAux_mask_len r false 0 [] rfl

theorem rowSegmentsAux_step (c : Char) (cs : List Char) (q : Bool) (lvl : Int)
    (elem : List Char) :
    rowSegmentsAux (c :: cs) q lvl elem =
      if c = '"' then rowSegmentsAux cs (!q) lvl (elem ++ [c])
      else if c = '[' && !q then rowSegmentsAux cs q (lvl + 1) (elem ++ [c])
      else if c = ']' && !q then rowSegmentsAux cs q (lvl - 1) (elem ++ [c])
      else if c = ',' && !q && lvl = 0 then
        elem :: rowSegmentsAux cs q lvl []
      else rowSegmentsAux cs q lvl (elem ++ [c]) := rfl

theorem rowSegmentsAux_ne_nil : ∀ (cs : List Char) (q : Bool) (lvl : Int)
    (elem : List Char), rowSegmentsAux cs q lvl elem ≠ [] := by
  intro cs
  induction cs with
  | nil => intro q lvl elem; simp [rowSegmentsAux]
  | cons c cs ih =>
    intro q lvl elem
    rw [rowSegmentsAux_step]
    split_ifs <;> first | exact ih _ _ _ | simp

/-- The element loop is the raw segment split followed by the per-segment
post-processing: trimming, and dropping a trim-empty final segment. -/
theorem splitRowAux_eq_segments : ∀ (cs : List Char) (q : Bool) (lvl : Int)
    (elem : List Char),
    splitRowAux cs q lvl elem =
      elementsOfSegments (rowSegmentsAux cs q lvl elem) := by
  intro cs
  induction cs with
  | nil => intro q lvl elem; rfl
  | cons c cs ih =>
    intro q lvl elem
    rw [splitRowAux_step, rowSegmentsAux_step]
    split_ifs
    · exact ih _ _ _
    · exact ih _ _ _
    · exact ih _ _ _
    · rcases hseg : rowSegmentsAux cs q lvl [] with _ | ⟨s, t⟩
      · exact absurd hseg (rowSegmentsAux_ne_nil _ _ _ _)
      · rw [ih q lvl [], hseg]
        rfl
    · exact ih _ _ _

/-- The raw segment split sees only the quote mask of its input: the
masked run splits into exactly the masks of the original segments, so
the split positions themselves are unchanged by masking. -/
theorem rowSegmentsAux_mask (cs : List Char) :
    ∀ (q : Bool) (lvl : Int) (elem : List Char), quoteState false elem = q →
      rowSegmentsAux (maskAux q cs) q lvl (maskAux false elem) =
        (rowSegmentsAux cs q lvl elem).map (maskAux false) := by
  induction cs with
  | nil =>
    intro q lvl elem _
    rfl
  | cons c cs ih =>
    intro q lvl elem hq
    have happ : maskAux false elem ++ [maskChar q c] =
        maskAux false (elem ++ [c]) := by
      rw [maskAux_append, hq]
      rfl
    have hstate : quoteState false (elem ++ [c]) = quoteFlip q c := by
      rw [quoteState_append, hq]
      rfl
    rw [show maskAux q (c :: cs) =
      maskChar q c :: maskAux (quoteFlip q c) cs from rfl]
    rw [rowSegmentsAux_step, rowSegmentsAux_step]
    by_cases hc : c = '"'
    · subst hc
      have hmc : maskChar q '"' = '"' := by simp [maskChar]
      have hqf : quoteFlip q '"' = !q := by simp [quoteFlip]
      rw [hmc, if_pos rfl, if_pos rfl, hqf]
      have hih := ih (!q) lvl (elem ++ ['"']) (by rw [hstate, hqf])
      rw [← happ, hmc] at hih
      exact hih
    · cases q with
      | true =>
        have hmc : maskChar true c = '_' := by simp [maskChar, hc]
        have hqf : quoteFlip true c = true := by simp [quoteFlip, hc]
        have happ2 := happ
        rw [hmc] at happ2
        rw [hmc, hqf]
        simp only [show (('_' : Char) = '"') = False from by simp,
          if_false, Bool.not_true, Bool.and_false, Bool.false_and,
          if_neg hc]
        rw [happ2]
        exact ih true lvl (elem ++ [c]) (by rw [hstate, hqf])
      | false =>
        have hmc : maskChar false c = c := by simp [maskChar, hc]
        have hqf : quoteFlip false c = false := by simp [quoteFlip, hc]
        have happ2 := happ
        rw [hmc] at happ2
        rw [hmc, hqf]
        have hnext : quoteState false (elem ++ [c]) = false := by
          rw [hstate, hqf]
        rw [if_neg hc, if_neg hc]
        by_cases hb : c = '['
        · have hcb : (c = '[' && !false) = true := by simp [hb]
          rw [if_pos hcb, if_pos hcb, happ2]
          exact ih false (lvl + 1) (elem ++ [c]) hnext
        · have hcb : ¬ ((c = '[' && !false) = true) := by simp [hb]
          rw [if_neg hcb, if_neg hcb]
          by_cases hb2 : c = ']'
          · have hcb2 : (c = ']' && !false) = true := by simp [hb2]
            rw [if_pos hcb2, if_pos hcb2, happ2]
            exact ih false (lvl - 1) (elem ++ [c]) hnext
          · have hcb2 : ¬ ((c = ']' && !false) = true) := by simp [hb2]
            rw [if_neg hcb2, if_neg hcb2]
            by_cases hb3 : c = ',' ∧ lvl = 0
            · have hcb3 : (c = ',' && !false && lvl = 0) = true := by
                simp [hb3.1, hb3.2]
              rw [if_pos hcb3, if_pos hcb3, List.map_cons]
              have hih := ih false lvl [] rfl
              simp only [maskAux] at hih
              rw [hih]
            · have hcb3 : ¬ ((c = ',' && !false && lvl = 0) = true) := by
                simp only [Bool.not_false, Bool.and_true, Bool.and_eq_true,
                  decide_eq_true_eq]
                intro hx
                exact hb3 ⟨hx.1, hx.2⟩
              rw [if_neg hcb3, if_neg hcb3, happ2]
              exact ih false lvl (elem ++ [c]) hnext

/-- The raw segments of the masked row interior are exactly the masks of
the original raw segments. -/
theorem rowSegments_mask (r : List Char) :
    rowSegments (maskQuoted r) = (rowSegments r).map maskQuoted :=
  rowSegmentsAux_mask r false 0 [] rfl

/-- `splitRowElements` is the raw comma split followed by per-segment
trimming (dropping a trim-empty final segment). -/
theorem splitRowElements_eq_segments (r : List Char) :
    splitRowElements r = elementsOfSegments (rowSegments r) :=
  splitRowAux_eq_segments r false 0 []

/- ## Claim C5 -/

/-- C5: the structural scanners are quote-aware — nesting-depth counting,
first-level bracket matching (also the row scan of the grid parser, which
is the same scan) and the element loop's comma split depend only on the
quote mask of their input: the masked row interior splits into exactly
the masks of the original raw segments (so the split positions are
unchanged by masking), the element list is per-segment trimming of those
segments, and in particular the element count is mask-invariant; but the
depth-2 line-breaking transformation of the array formatter is a plain
textual replacement and does rewrite bracket patterns inside quoted
segments. -/
theorem claim5_amended :
    (∀ cs : List Char,
      count_nesting_depth (maskQuoted cs) = count_nesting_depth cs)
    ∧ (∀ cs : List Char,
      find_first_level_brackets (maskQuoted cs) =
        find_first_level_brackets cs)
    ∧ (∀ r : List Char,
      rowSegments (maskQuoted r) = (rowSegments r).map maskQuoted)
    ∧ (∀ r : List Char,
      splitRowElements r = elementsOfSegments (rowSegments r))
    ∧ (∀ r : List Char,
      (splitRowElements (maskQuoted r)).length =
        (splitRowElements r).length)
    ∧ ¬ (∀ s : String,
      quotedSegments (format_2d_array s).data = quotedSegments s.data) := by
  refine ⟨count_nesting_depth_mask, find_first_level_brackets_mask,
    rowSegments_mask, splitRowElements_eq_segments,
    splitRowElements_mask_len, ?_⟩
  intro h
  have := h "[[\"a[[b\"]]"
  rw [show format_2d_array "[[\"a[[b\"]]" = "[\n  [\"a[\n  [b\"]\n]" from by
    decide] at this
  exact absurd this (by decide)

/-- C5 counterexample: the representation `[["a[[b"]]` has quote-aware
depth 2, so the array formatter applies the three plain rewrites; they
also fire on the `[[` inside the quoted element, which becomes
`a[\n  [b` in the output — quoted content is not left untouched. -/
theorem claim5_counterexample :
    count_nesting_depth "[[\"a[[b\"]]".data = some 2
    ∧ format_container "[[\"a[[b\"]]" = some "[\n  [\"a[\n  [b\"]\n]"
    ∧ quotedSegments "[[\"a[[b\"]]".data = ["a[[b".data]
    ∧ quotedSegments "[\n  [\"a[\n  [b\"]\n]".data = ["a[\n  [b".data]
    ∧ quotedSegments (format_2d_array "[[\"a[[b\"]]").data ≠
        quotedSegments "[[\"a[[b\"]]".data := by
  refine ⟨by decide, by decide, by decide, by decide, by decide⟩

/- ## Column-width and row-rendering lemmas (claims C6, C7) -/

theorem updWidths_length : ∀ (ws : List Nat) (r : List String),
    (updWidths ws r).length = ws.length := by
  intro ws
  induction ws with
  | nil => intro r; cases r <;> rfl
  | cons w ws ih =>
    intro r
    cases r with
    | nil => rfl
    | cons v vs => simp [updWidths, ih]

theorem updWidths_getD : ∀ (ws : List Nat) (r : List String) (j : Nat),
    j < ws.length →
    (updWidths ws r).getD j 0 =
      Nat.max (ws.getD j 0) ((r.getD j "").length) := by
  intro ws
  induction ws with
  | nil => intro r j h; simp at h
  | cons w ws ih =>
    intro r j h
    cases r with
    | nil => simp [updWidths, List.getD]
    | cons v vs =>
      cases j with
      | zero => simp [updWidths]
      | succ j =>
        simp only [updWidths, List.getD_cons_succ]
        exact ih vs j (by simpa using h)

theorem foldl_updWidths_length : ∀ (g : List (List String)) (ws : List Nat),
    (g.foldl updWidths ws).length = ws.length := by
  intro g
  induction g with
  | nil => intro ws; rfl
  | cons r g ih =>
    intro ws
    simp only [List.foldl_cons]
    rw [ih, updWidths_length]

theorem foldl_updWidths_getD : ∀ (g : List (List String)) (ws : List Nat)
    (j : Nat), j < ws.length →
    (g.foldl updWidths ws).getD j 0 =
      g.foldl (fun a r => Nat.max a ((r.getD j "").length)) (ws.getD j 0) := by
  intro g
  induction g with
  | nil => intro ws j h; rfl
  | cons r g ih =>
    intro ws j h
    simp only [List.foldl_cons]
    rw [ih (updWidths ws r) j (by rw [updWidths_length]; exact h),
      updWidths_getD ws r j h]

theorem colWidthsCode_eq_spec (g : List (List String)) (n : Nat) :
    colWidthsCode g n = specColWidths g n := by
  have hlen : (colWidthsCode g n).length = n := by
    unfold colWidthsCode
    rw [foldl_updWidths_length]
    simp
  have hlen2 : (specColWidths g n).length = n := by
    simp [specColWidths]
  apply List.ext_getElem (by rw [hlen, hlen2])
  intro j h1 h2
  have hj : j < n := by rwa [hlen] at h1
  rw [← List.getD_eq_getElem (colWidthsCode g n) 0 h1,
    ← List.getD_eq_getElem (specColWidths g n) 0 h2]
  unfold colWidthsCode
  rw [foldl_updWidths_getD g _ j (by simpa using hj)]
  have hz : (List.replicate n 0).getD j 0 = 0 := by
    simp [List.getD]
  rw [hz]
  simp [specColWidths, List.getD, hj]

theorem renderCells_eq : ∀ (row : List String) (widths : List Nat)
    (j ncols : Nat), widths.length = ncols → j + row.length = ncols →
    renderCells widths ncols row j =
      some (sepJoinL "  ".data (List.zipWith padCell row (widths.drop j))) := by
  intro row
  induction row with
  | nil =>
    intro widths j ncols _ _
    rfl
  | cons v vs ih =>
    intro widths j ncols hw hj
    simp only [List.length_cons] at hj
    have hjlt : j < widths.length := by omega
    have hget : widths.get? j = some widths[j] := List.get?_eq_get hjlt
    have hdrop : widths.drop j = widths[j] :: widths.drop (j + 1) :=
      List.drop_eq_getElem_cons hjlt
    unfold renderCells
    rw [hget]
    rw [ih widths (j + 1) ncols hw (by omega)]
    rw [hdrop, List.zipWith_cons_cons]
    cases vs with
    | nil =>
      have hlast : ¬ j < ncols - 1 := by
        simp only [List.length_nil] at hj
        omega
      rw [if_neg hlast]
      have hnil : List.zipWith padCell ([] : List String)
          (widths.drop (j + 1)) = [] := by simp
      rw [hnil]
      simp [sepJoinL]
    | cons v2 vs2 =>
      have hmid : j < ncols - 1 := by
        simp only [List.length_cons] at hj
        omega
      rw [if_pos hmid]
      have hd2 : j + 1 < widths.length := by
        simp only [List.length_cons] at hj
        omega
      have hdrop2 : widths.drop (j + 1) =
          widths[j + 1] :: widths.drop (j + 2) :=
        List.drop_eq_getElem_cons hd2
      rw [hdrop2, List.zipWith_cons_cons]
      simp [sepJoinL]

theorem renderRowLine_eq (l r : List Char) (widths : List Nat) (ncols : Nat)
    (row : List String) (hw : widths.length = ncols)
    (hr : row.length = ncols) :
    renderRowLine l r widths ncols row =
      some (specRowLine l r widths row) := by
  unfold renderRowLine specRowLine
  rw [renderCells_eq row widths 0 ncols hw (by simpa using hr)]
  simp

theorem renderRowsM_eq : ∀ (rows : List (List String)) (nrows : Nat)
    (widths : List Nat) (ncols i : Nat), widths.length = ncols →
    (∀ r ∈ rows, r.length = ncols) →
    renderRowsM nrows widths ncols rows i =
      some (specMatrixLinesAux nrows widths rows i) := by
  intro rows
  induction rows with
  | nil => intro nrows widths ncols i _ _; rfl
  | cons row rest ih =>
    intro nrows widths ncols i hw hrows
    unfold renderRowsM specMatrixLinesAux
    rw [renderRowLine_eq _ _ widths ncols row hw
      (hrows row (List.mem_cons_self _ _))]
    rw [ih nrows widths ncols (i + 1) hw
      (fun r hr => hrows r (List.mem_cons_of_mem _ hr))]

theorem renderRowsD_eq : ∀ (rows : List (List String))
    (widths : List Nat) (ncols : Nat), widths.length = ncols →
    (∀ r ∈ rows, r.length = ncols) →
    renderRowsD widths ncols rows =
      some ((rows.map (specRowLine "│".data "│".data widths)).flatten) := by
  intro rows
  induction rows with
  | nil => intro widths ncols _ _; rfl
  | cons row rest ih =>
    intro widths ncols hw hrows
    unfold renderRowsD
    rw [renderRowLine_eq _ _ widths ncols row hw
      (hrows row (List.mem_cons_self _ _))]
    rw [ih widths ncols hw (fun r hr => hrows r (List.mem_cons_of_mem _ hr))]
    simp

theorem renderCells_le_eq : ∀ (row : List String) (widths : List Nat)
    (j ncols : Nat), widths.length = ncols → j + row.length ≤ ncols →
    renderCells widths ncols row j =
      some (sepJoinL "  ".data (List.zipWith padCell row (widths.drop j)) ++
        (if j + row.length < ncols ∧ row ≠ [] then "  ".data else [])) := by
  intro row
  induction row with
  | nil =>
    intro widths j ncols _ _
    simp [renderCells, sepJoinL]
  | cons v vs ih =>
    intro widths j ncols hw hj
    simp only [List.length_cons] at hj
    have hjlt : j < widths.length := by omega
    have hget : widths.get? j = some widths[j] := List.get?_eq_get hjlt
    have hdrop : widths.drop j = widths[j] :: widths.drop (j + 1) :=
      List.drop_eq_getElem_cons hjlt
    unfold renderCells
    rw [hget]
    rw [ih widths (j + 1) ncols hw (by omega)]
    rw [hdrop, List.zipWith_cons_cons]
    cases vs with
    | nil =>
      have hnil : List.zipWith padCell ([] : List String)
          (widths.drop (j + 1)) = [] := by simp
      rw [hnil]
      have hcIH : ¬ (j + 1 + ([] : List String).length < ncols ∧
          ([] : List String) ≠ []) := by simp
      rw [if_neg hcIH]
      by_cases hl : j + 1 < ncols
      · have h1 : j < ncols - 1 := by omega
        have h2 : j + (v :: ([] : List String)).length < ncols ∧
            v :: ([] : List String) ≠ [] := by
          refine ⟨?_, by simp⟩
          simp only [List.length_cons, List.length_nil]
          omega
        rw [if_pos h1, if_pos h2]
        simp [sepJoinL]
      · have h1 : ¬ j < ncols - 1 := by omega
        have h2 : ¬ (j + (v :: ([] : List String)).length < ncols ∧
            v :: ([] : List String) ≠ []) := by
          rintro ⟨hx, -⟩
          simp only [List.length_cons, List.length_nil] at hx
          omega
        rw [if_neg h1, if_neg h2]
        simp [sepJoinL]
    | cons v2 vs2 =>
      simp only [List.length_cons] at hj
      have h1 : j < ncols - 1 := by omega
      rw [if_pos h1]
      have hd2 : j + 1 < widths.length := by omega
      have hdrop2 : widths.drop (j + 1) =
          widths[j + 1] :: widths.drop (j + 2) :=
        List.drop_eq_getElem_cons hd2
      rw [hdrop2, List.zipWith_cons_cons]
      by_cases hC : j + (v :: v2 :: vs2).length < ncols
      · have hCl : j + 1 + (v2 :: vs2).length < ncols := by
          simp only [List.length_cons] at hC ⊢
          omega
        rw [if_pos ⟨hCl, by simp⟩, if_pos ⟨hC, by simp⟩]
        simp [sepJoinL, List.append_assoc]
      · have hCl : ¬ (j + 1 + (v2 :: vs2).length < ncols ∧
            v2 :: vs2 ≠ []) := by
          rintro ⟨hx, -⟩
          apply hC
          simp only [List.length_cons] at hx ⊢
          omega
        have hCr : ¬ (j + (v :: v2 :: vs2).length < ncols ∧
            v :: v2 :: vs2 ≠ []) := fun hx => hC hx.1
        rw [if_neg hCl, if_neg hCr]
        simp [sepJoinL, List.append_assoc]

theorem renderRowLine_le_eq (l r : List Char) (widths : List Nat)
    (ncols : Nat) (row : List String) (hw : widths.length = ncols)
    (hr : row.length ≤ ncols) :
    renderRowLine l r widths ncols row =
      some (specRowLineG l r widths ncols row) := by
  unfold renderRowLine specRowLineG
  rw [renderCells_le_eq row widths 0 ncols hw (by simpa using hr)]
  simp [List.append_assoc]

theorem renderRowsD_le_eq : ∀ (rows : List (List String))
    (widths : List Nat) (ncols : Nat), widths.length = ncols →
    (∀ r ∈ rows, r.length ≤ ncols) →
    renderRowsD widths ncols rows =
      some ((rows.map
        (specRowLineG "│".data "│".data widths ncols)).flatten) := by
  intro rows
  induction rows with
  | nil => intro widths ncols _ _; rfl
  | cons row rest ih =>
    intro widths ncols hw hrows
    unfold renderRowsD
    rw [renderRowLine_le_eq _ _ widths ncols row hw
      (hrows row (List.mem_cons_self _ _))]
    rw [ih widths ncols hw (fun r hr => hrows r (List.mem_cons_of_mem _ hr))]
    simp

/-- Every `some` output of the determinant row loop on a non-empty grid
starts with the left bar glyph. -/
theorem renderRowsD_head (widths : List Nat) (ncols : Nat)
    (row : List String) (rest : List (List String)) (out : List Char)
    (h : renderRowsD widths ncols (row :: rest) = some out) :
    ∃ t, out = '│' :: t := by
  unfold renderRowsD at h
  cases h1 : renderRowLine "│".data "│".data widths ncols row with
  | none =>
    rw [h1] at h
    cases h2 : renderRowsD widths ncols rest with
    | none => rw [h2] at h; exact Option.noConfusion h
    | some b => rw [h2] at h; exact Option.noConfusion h
  | some a =>
    rw [h1] at h
    cases h2 : renderRowsD widths ncols rest with
    | none => rw [h2] at h; exact Option.noConfusion h
    | some b =>
      rw [h2] at h
      have hout : a ++ b = out := Option.some.inj h
      unfold renderRowLine at h1
      cases hc : renderCells widths ncols row 0 with
      | none => rw [hc] at h1; exact Option.noConfusion h1
      | some cells =>
        rw [hc] at h1
        have ha : "│".data ++ "  ".data ++ cells ++ "  ".data ++
            "│".data ++ ['\n'] = a := Option.some.inj h1
        have hbar : "│".data = ['│'] := rfl
        refine ⟨"  ".data ++ cells ++ "  ".data ++ "│".data ++ ['\n'] ++ b,
          ?_⟩
        rw [← hout, ← ha, hbar]
        simp [List.append_assoc]

/-- The render branch of the determinant formatter never produces the
non-square fallback string: every rendered line starts with `│`. -/
theorem det_render_ne_fallback (widths : List Nat) (ncols : Nat)
    (row : List String) (rest : List (List String)) :
    (renderRowsD widths ncols (row :: rest)).map String.mk ≠
      some "Determinant undefined (non-square or too small matrix)" := by
  cases hr : renderRowsD widths ncols (row :: rest) with
  | none => simp
  | some out =>
    obtain ⟨t, rfl⟩ := renderRowsD_head _ _ _ _ _ hr
    simp only [Option.map_some', ne_eq, Option.some.injEq]
    intro hx
    have hx2 := congrArg String.data hx
    have hx3 := congrArg List.head? hx2
    exact absurd (Option.some.inj hx3) (by decide)

/- ## Claim C6 -/

/-- C6: the matrix formatter returns an unparsable representation
unchanged; a representation that parses to an empty row list (including
every 1-D sequence) gives the literal `[Empty Matrix]`; a non-empty grid
whose rows all have the first row's length renders one line per row, each
cell padded to its column's maximum width, two spaces between columns,
two-space interior padding and position-dependent bracket glyphs; the
2×2 example renders exactly as claimed. -/
theorem claim6_amended :
    (∀ s : String, parse_2d_array s = none → format_matrix s = some s)
    ∧ (∀ s : String, parse_2d_array s = some [] →
        format_matrix s = some "[Empty Matrix]")
    ∧ (∀ (s : String) (g : List (List String)), parse_2d_array s = some g →
        g ≠ [] → (∀ r ∈ g, r.length = (g.headD []).length) →
        format_matrix s = some (specMatrixRender g))
    ∧ format_matrix "[[4, 3], [2, 1]]" = some "⎛  4  3  ⎞\n⎝  2  1  ⎠\n"
    ∧ format_matrix "(1, 2)" = some "(1, 2)" := by
  refine ⟨?_, ?_, ?_, by decide, by decide⟩
  · intro s h
    simp [format_matrix, h]
  · intro s h
    simp [format_matrix, h]
  · intro s g hp hne huni
    have hlen : ¬ g.length = 0 := by
      cases g with
      | nil => exact absurd rfl hne
      | cons r rs => simp
    simp only [format_matrix, hp]
    rw [if_neg hlen, colWidthsCode_eq_spec,
      renderRowsM_eq g g.length (specColWidths g (g.headD []).length)
        (g.headD []).length 0 (by simp [specColWidths]) huni]
    rfl

/-- C6 counterexample: `[1, 2]` parses to an empty grid, for which the
claim's row-per-line rendering is the empty string, yet the formatter
returns the literal `[Empty Matrix]` — neither the claimed rendering nor
the unchanged representation; and the ragged `[[1], [2, 3]]` parses to a
grid but makes the column-width lookup panic instead of rendering. -/
theorem claim6_counterexample :
    parse_2d_array "[1, 2]" = some []
    ∧ format_matrix "[1, 2]" = some "[Empty Matrix]"
    ∧ specMatrixRender [] = ""
    ∧ ("[Empty Matrix]" : String) ≠ ""
    ∧ ("[Empty Matrix]" : String) ≠ "[1, 2]"
    ∧ format_matrix "[[1], [2, 3]]" = none := by
  refine ⟨by decide, by decide, by decide, by decide, by decide, by decide⟩

/-- C6 witness: the amended theorem applied to the 2×2 example and to a
non-bracket representation. -/
theorem claim6_witness :
    format_matrix "[[4, 3], [2, 1]]" =
      some (specMatrixRender [["4", "3"], ["2", "1"]])
    ∧ format_matrix "(1, 2)" = some "(1, 2)" := by
  constructor
  · exact claim6_amended.2.2.1 "[[4, 3], [2, 1]]" [["4", "3"], ["2", "1"]]
      (by decide) (by decide) (by decide)
  · exact claim6_amended.1 "(1, 2)" (by decide)

/- ## Claim C7 -/

/-- C7: for a representation that parses into a grid, the determinant
formatter returns the fixed non-square fallback string exactly when the
row count differs from the first row's length or there are fewer than two
rows — when the test passes, the result is never the fallback string; a
grid passing that test whose rows are all no longer than the first
renders every row between `│ │` with the matrix formatter's column-width
and two-space padding rules, a non-empty row shorter than the first
getting one further two-space gap after its last cell; the concrete
examples behave as claimed. -/
theorem claim7_amended :
    (∀ (s : String) (g : List (List String)), parse_2d_array s = some g →
        (g.length ≠ (g.headD []).length ∨ g.length < 2) →
        format_determinant s =
          some "Determinant undefined (non-square or too small matrix)")
    ∧ (∀ (s : String) (g : List (List String)), parse_2d_array s = some g →
        g.length = (g.headD []).length → 2 ≤ g.length →
        format_determinant s ≠
          some "Determinant undefined (non-square or too small matrix)")
    ∧ (∀ (s : String) (g : List (List String)), parse_2d_array s = some g →
        g.length = (g.headD []).length → 2 ≤ g.length →
        (∀ r ∈ g, r.length ≤ (g.headD []).length) →
        format_determinant s = some (specDetRender g))
    ∧ format_determinant "[[4, 3], [2, 1]]" = some "│  4  3  │\n│  2  1  │\n"
    ∧ format_determinant "[[1, 2, 3]]" =
        some "Determinant undefined (non-square or too small matrix)" := by
  refine ⟨?_, ?_, ?_, by decide, by decide⟩
  · intro s g hp hcond
    simp only [format_determinant, hp]
    rw [if_pos hcond]
  · intro s g hp hsq h2
    simp only [format_determinant, hp]
    rw [if_neg (by push_neg; exact ⟨hsq, h2⟩)]
    cases g with
    | nil => simp only [List.length_nil] at h2; omega
    | cons row rest => exact det_render_ne_fallback _ _ _ _
  · intro s g hp hsq h2 hle
    simp only [format_determinant, hp]
    rw [if_neg (by push_neg; exact ⟨hsq, h2⟩), colWidthsCode_eq_spec,
      renderRowsD_le_eq g (specColWidths g (g.headD []).length)
        (g.headD []).length (by simp [specColWidths]) hle]
    rfl

/-- C7 counterexample: the ragged grid of `[[1, 2], [3]]` is not square,
yet the formatter renders it between vertical bars instead of returning
the fallback (the squareness test compares only the row count with the
first row's length); and on `[[1, 2], [3, 4, 5]]`, also not square, the
formatter panics on the column-width lookup instead of returning the
fallback — refuting the claimed equivalence. -/
theorem claim7_counterexample :
    parse_2d_array "[[1, 2], [3]]" = some [["1", "2"], ["3"]]
    ∧ specSquare [["1", "2"], ["3"]] = false
    ∧ format_determinant "[[1, 2], [3]]" = some "│  1  2  │\n│  3    │\n"
    ∧ ("│  1  2  │\n│  3    │\n" : String) ≠
        "Determinant undefined (non-square or too small matrix)"
    ∧ format_determinant "[[1, 2], [3, 4, 5]]" = none := by
  refine ⟨by decide, by decide, by decide, by decide, by decide⟩

/-- C7 witness: the amended theorem applied to the square 2×2 example, to
the ragged `[[1, 2], [3]]` (second row shorter than the first: rendered,
with the doubled trailing gap, and provably not the fallback), and to the
1×3 fallback example. -/
theorem claim7_witness :
    format_determinant "[[4, 3], [2, 1]]" =
      some (specDetRender [["4", "3"], ["2", "1"]])
    ∧ format_determinant "[[1, 2], [3]]" =
        some (specDetRender [["1", "2"], ["3"]])
    ∧ format_determinant "[[1, 2], [3]]" ≠
        some "Determinant undefined (non-square or too small matrix)"
    ∧ format_determinant "[[1, 2, 3]]" =
        some "Determinant undefined (non-square or too small matrix)" := by
  refine ⟨?_, ?_, ?_, ?_⟩
  · exact claim7_amended.2.2.1 "[[4, 3], [2, 1]]" [["4", "3"], ["2", "1"]]
      (by decide) (by decide) (by decide) (by decide)
  · exact claim7_amended.2.2.1 "[[1, 2], [3]]" [["1", "2"], ["3"]]
      (by decide) (by decide) (by decide) (by decide)
  · exact claim7_amended.2.1 "[[1, 2], [3]]" [["1", "2"], ["3"]]
      (by decide) (by decide) (by decide)
  · exact claim7_amended.1 "[[1, 2, 3]]" [["1", "2", "3"]]
      (by decide) (by decide)

/- ## Separator-scanner lemmas (claim C10) -/

theorem head?_cons_reconstruct {xs : List Char} {a : Char}
    (h : xs.head? = some a) : xs = a :: xs.tail := by
  cases xs with
  | nil => simp at h
  | cons x t =>
    simp at h
    rw [h]
    rfl

theorem sepScanAux_sound :
    ∀ (cs : List Char) (i j : Nat) (c : List Char),
      sepScanAux cs i = some (j, c) →
      ∃ u : List Char, cs = u ++ '$' :: '(' :: (c ++ [')']) ∧
        u.length = j - i ∧ i ≤ j ∧ ')' ∉ c := by
  intro cs
  induction cs with
  | nil => intro i j c h; simp [sepScanAux] at h
  | cons x xs ih =>
    intro i j c h
    unfold sepScanAux at h
    by_cases h1 : x = '$' ∧ xs.head? = some '('
    · rw [if_pos h1] at h
      by_cases h2 : xs.tail.getLast? = some ')' ∧
          ¬ xs.tail.dropLast.contains ')'
      · rw [if_pos h2] at h
        obtain ⟨hj, hc⟩ : i = j ∧ xs.tail.dropLast = c := by
          constructor
          · exact congrArg Prod.fst (Option.some.inj h)
          · exact congrArg Prod.snd (Option.some.inj h)
        refine ⟨[], ?_, by simp; omega, by omega, ?_⟩
        · have htail : xs.tail ≠ [] := by
            intro hx
            rw [hx] at h2
            simp at h2
          have hlast : xs.tail.getLast htail = ')' := by
            have := List.getLast?_eq_getLast xs.tail htail
            rw [this] at h2
            exact Option.some.inj h2.1
          have hsplit := List.dropLast_append_getLast htail
          rw [hlast, hc] at hsplit
          rw [List.nil_append, h1.1, head?_cons_reconstruct h1.2, hsplit]
        · rw [← hc]
          simpa using h2.2
      · rw [if_neg h2] at h
        obtain ⟨u, hu, hl, hij, hnc⟩ := ih (i + 1) j c h
        refine ⟨x :: u, by rw [hu]; rfl, by simp; omega, by omega, hnc⟩
    · rw [if_neg h1] at h
      obtain ⟨u, hu, hl, hij, hnc⟩ := ih (i + 1) j c h
      refine ⟨x :: u, by rw [hu]; rfl, by simp; omega, by omega, hnc⟩

theorem sepScanAux_complete :
    ∀ (u : List Char) (c : List Char) (i : Nat), ')' ∉ c →
      (sepScanAux (u ++ '$' :: '(' :: (c ++ [')'])) i).isSome := by
  intro u
  induction u with
  | nil =>
    intro c i hc
    rw [List.nil_append]
    unfold sepScanAux
    rw [if_pos ⟨rfl, rfl⟩]
    have hcond : (('(' : Char) :: (c ++ [')'])).tail.getLast? = some ')' ∧
        ¬ (('(' : Char) :: (c ++ [')'])).tail.dropLast.contains ')' := by
      constructor
      · show (c ++ [')']).getLast? = some ')'
        exact List.getLast?_concat c
      · show ¬ (c ++ [')']).dropLast.contains ')'
        rw [List.dropLast_concat]
        simpa using hc
    rw [if_pos hcond]
    rfl
  | cons x u' ih =>
    intro c i hc
    rw [List.cons_append]
    unfold sepScanAux
    by_cases h1 : x = '$' ∧
        (u' ++ '$' :: '(' :: (c ++ [')'])).head? = some '('
    · rw [if_pos h1]
      by_cases h2 :
          (u' ++ '$' :: '(' :: (c ++ [')'])).tail.getLast? = some ')' ∧
          ¬ (u' ++ '$' :: '(' :: (c ++ [')'])).tail.dropLast.contains ')'
      · rw [if_pos h2]
        rfl
      · rw [if_neg h2]
        exact ih c (i + 1) hc
    · rw [if_neg h1]
      exact ih c (i + 1) hc

theorem printFmtInterp_nil (R : Resolver) (fuel : Nat) :
    printFmtInterp R fuel [] = some [] := by
  cases fuel <;> rfl

theorem printFmtInterp_cons (R : Resolver) (fuel : Nat) (c : Char)
    (rest : List Char) :
    printFmtInterp R (fuel + 1) (c :: rest) =
      if c = '{' then
        if rest.head? = some '{' then
          (printFmtInterp R fuel rest.tail).map (fun t => '{' :: t)
        else
          match splitAtFirst '}' rest with
          | none => none
          | some (arg, after) =>
            let idPart := match splitAtFirst ':' arg with
              | none => arg
              | some p => p.1
            let spec : Option String := match splitAtFirst ':' arg with
              | none => none
              | some p => some (String.mk p.2)
            if isValidIdent idPart then
              (printFmtInterp R fuel after).map
                (fun t => (R.varFmt (String.mk idPart) spec none).data ++ t)
            else none
      else if c = '}' then
        if rest.head? = some '}' then
          (printFmtInterp R fuel rest.tail).map (fun t => '}' :: t)
        else none
      else (printFmtInterp R fuel rest).map (fun t => c :: t) := rfl

/-- Brace-free content passes through the generated format string
verbatim. -/
theorem printFmtInterp_verbatim (R : Resolver) :
    ∀ (fuel : Nat) (cs : List Char), cs.length ≤ fuel →
      '{' ∉ cs → '}' ∉ cs → printFmtInterp R fuel cs = some cs := by
  intro fuel
  induction fuel with
  | zero =>
    intro cs hl _ _
    cases cs with
    | nil => rfl
    | cons c rest => simp at hl
  | succ f ih =>
    intro cs hl ho hc
    cases cs with
    | nil => rfl
    | cons c rest =>
      rw [printFmtInterp_cons]
      simp only [List.mem_cons, not_or] at ho hc
      rw [if_neg (fun hx => ho.1 hx.symm), if_neg (fun hx => hc.1 hx.symm)]
      rw [ih rest (by simp only [List.length_cons] at hl; omega) ho.2 hc.2]
      rfl

theorem splitAtFirst_not_mem {sep : Char} :
    ∀ {l : List Char}, sep ∉ l → splitAtFirst sep l = none := by
  intro l
  induction l with
  | nil => intro _; rfl
  | cons c cs ih =>
    intro h
    simp only [List.mem_cons, not_or] at h
    unfold splitAtFirst
    rw [if_neg (fun hx => h.1 hx.symm), ih h.2]
    rfl

theorem splitAtFirst_concat {sep : Char} :
    ∀ {l : List Char}, sep ∉ l →
      splitAtFirst sep (l ++ [sep]) = some (l, []) := by
  intro l
  induction l with
  | nil =>
    intro _
    simp [splitAtFirst]
  | cons c cs ih =>
    intro h
    simp only [List.mem_cons, not_or] at h
    rw [List.cons_append]
    unfold splitAtFirst
    rw [if_neg (fun hx => h.1 hx.symm), ih h.2]
    rfl

/-- Every character of a valid identifier is alphanumeric or an
underscore. -/
theorem isValidIdent_mem_alnum {id : List Char}
    (h : isValidIdent id = true) :
    ∀ x ∈ id, x.isAlphanum = true ∨ x = '_' := by
  cases id with
  | nil => simp [isValidIdent] at h
  | cons a t =>
    simp only [isValidIdent, Bool.and_eq_true, Bool.or_eq_true,
      decide_eq_true_eq, List.all_eq_true] at h
    intro x hx
    rcases List.mem_cons.mp hx with hx1 | hx2
    · subst hx1
      rcases h.1 with h1 | h1
      · exact Or.inl (by simp [Char.isAlphanum, h1])
      · exact Or.inr h1
    · have h2 := h.2 x hx2
      simpa using h2

theorem isValidIdent_not_mem {id : List Char} (h : isValidIdent id = true)
    {x : Char} (hx : x.isAlphanum = false) (hu : x ≠ '_') : x ∉ id := by
  intro hmem
  rcases isValidIdent_mem_alnum h x hmem with h1 | h1
  · rw [hx] at h1
    exact Bool.noConfusion h1
  · exact hu h1

theorem isValidIdent_ne_nil {id : List Char}
    (h : isValidIdent id = true) : id ≠ [] := by
  intro hx
  subst hx
  simp [isValidIdent] at h

theorem isValidIdent_head_ne_brace {id : List Char}
    (h : isValidIdent id = true) : id.head? ≠ some '{' := by
  cases id with
  | nil => simp [isValidIdent] at h
  | cons a t =>
    simp only [isValidIdent, Bool.and_eq_true, Bool.or_eq_true,
      decide_eq_true_eq] at h
    simp only [List.head?_cons, ne_eq, Option.some.injEq]
    intro hx
    subst hx
    rcases h.1 with h1 | h1
    · exact absurd h1 (by decide)
    · exact absurd h1 (by decide)

theorem contains_false_of_not_mem {c : List Char} {x : Char} (h : x ∉ c) :
    c.contains x = false := by
  cases hx : c.contains x with
  | false => rfl
  | true => exact absurd (by simpa using hx) h

theorem contains_true_of_mem {c : List Char} {x : Char} (h : x ∈ c) :
    c.contains x = true := by
  simpa using h

/-- A lone `\x7bident\x7d` placeholder resolves the identifier through
the host formatter. -/
theorem printFmtInterp_single_arg (R : Resolver) (fuel : Nat)
    {id : List Char} (h : isValidIdent id = true) :
    printFmtInterp R (fuel + 1) ('{' :: (id ++ ['}'])) =
      some (R.varFmt (String.mk id) none none).data := by
  have hnb : '}' ∉ id := isValidIdent_not_mem h (by decide) (by decide)
  have hnc : ':' ∉ id := isValidIdent_not_mem h (by decide) (by decide)
  rw [printFmtInterp_cons, if_pos rfl]
  have hhead : ¬ (id ++ ['}']).head? = some '{' := by
    cases id with
    | nil => exact absurd rfl (isValidIdent_ne_nil h)
    | cons a t =>
      simp only [List.cons_append, List.head?_cons]
      simpa using isValidIdent_head_ne_brace h
  rw [if_neg hhead]
  simp only [splitAtFirst_concat hnb, splitAtFirst_not_mem hnc]
  rw [if_pos h, printFmtInterp_nil]
  simp

/- ## Claim C10 -/

/-- C10: a template ending in a `$(CONTENT)` directive has the directive
stripped before lexing and its automatic trailing newline suppressed; a
recognised separator is always a suffix of the template with a `)`-free
content (so a `$(...)` that is not final is never treated as a
directive), and conversely every template ending in such a directive is
recognised; without a directive the buffer is emitted with the trailing
newline.  After the main buffer, `CONTENT` is emitted: nothing for the
literal `""`; the runtime display value for a bare identifier; otherwise
`CONTENT` is spliced unescaped into the format string of a generated
`print!` call, so brace-, quote- and backslash-free content is printed
exactly as written, a `\x7bident\x7d` placeholder prints the
identifier's formatted value instead of the literal text, and a content
containing a quote or a backslash never reaches the verbatim path. -/
theorem claim10_separator :
    (∀ (R : Resolver) (t : String) (i : Nat) (c : List Char),
      sepScanOf t = some (i, c) →
      printlnOutput R t =
        (sepEmit R c).map (fun s =>
          renderTokens R
            (parse_format_string (String.mk (t.data.take i))).1 ++ s)
      ∧ t.data = t.data.take i ++ '$' :: '(' :: (c ++ [')'])
      ∧ ')' ∉ c)
    ∧ (∀ (u c : List Char), ')' ∉ c →
        (sepScanAux (u ++ '$' :: '(' :: (c ++ [')'])) 0).isSome)
    ∧ (∀ (R : Resolver) (t : String), sepScanOf t = none →
        printlnOutput R t =
          some (renderTokens R (parse_format_string t).1 ++ ['\n']))
    ∧ (∀ R : Resolver, sepEmit R ['"', '"'] = some [])
    ∧ (∀ (R : Resolver) (c : List Char), c ≠ ['"', '"'] →
        isValidIdent c = true →
        sepEmit R c = some (R.display (String.mk c)).data)
    ∧ (∀ (R : Resolver) (c : List Char), c ≠ ['"', '"'] →
        isValidIdent c = false → '{' ∉ c → '}' ∉ c → '"' ∉ c → '\\' ∉ c →
        sepEmit R c = some c)
    ∧ (∀ (R : Resolver) (id : List Char), isValidIdent id = true →
        sepEmit R ('{' :: (id ++ ['}'])) =
          some (R.varFmt (String.mk id) none none).data)
    ∧ (∀ (R : Resolver) (c : List Char), c ≠ ['"', '"'] →
        isValidIdent c = false → ('"' ∈ c ∨ '\\' ∈ c) →
        sepEmit R c = none) := by
  refine ⟨?_, ?_, ?_, fun R => rfl, ?_, ?_, ?_, ?_⟩
  · intro R t i c h
    obtain ⟨u, hu, hlen, -, hnc⟩ := sepScanAux_sound t.data 0 i c h
    have htake : t.data.take i = u := by
      rw [hu, show i = u.length from by omega]
      exact List.take_left u _
    refine ⟨?_, ?_, hnc⟩
    · simp only [printlnOutput, h]
    · rw [htake, ← hu]
  · intro u c hc
    exact sepScanAux_complete u c 0 hc
  · intro R t h
    simp only [printlnOutput, h]
  · intro R c hne hvi
    unfold sepEmit
    rw [if_neg hne, if_pos hvi]
  · intro R c hne hvi ho hcl hq hb
    unfold sepEmit
    rw [if_neg hne, if_neg (by rw [hvi]; simp)]
    rw [if_neg (by
      rw [contains_false_of_not_mem hq, contains_false_of_not_mem hb]
      simp)]
    exact printFmtInterp_verbatim R (c.length + 1) c (by omega) ho hcl
  · intro R id hvi
    have hne : ('{' :: (id ++ ['}'])) ≠ ['"', '"'] := by
      intro hx
      have hh := congrArg List.head? hx
      simp at hh
    have hnv : isValidIdent ('{' :: (id ++ ['}'])) = false := rfl
    have hq : ('"' : Char) ∉ ('{' :: (id ++ ['}'])) := by
      simp only [List.mem_cons, List.mem_append, List.mem_singleton, not_or]
      exact ⟨by decide, isValidIdent_not_mem hvi (by decide) (by decide),
        by decide⟩
    have hb : ('\\' : Char) ∉ ('{' :: (id ++ ['}'])) := by
      simp only [List.mem_cons, List.mem_append, List.mem_singleton, not_or]
      exact ⟨by decide, isValidIdent_not_mem hvi (by decide) (by decide),
        by decide⟩
    unfold sepEmit
    rw [if_neg hne, if_neg (by rw [hnv]; simp)]
    rw [if_neg (by
      rw [contains_false_of_not_mem hq, contains_false_of_not_mem hb]
      simp)]
    exact printFmtInterp_single_arg R ((id ++ ['}']).length + 1) hvi
  · intro R c hne hvi hmem
    unfold sepEmit
    rw [if_neg hne, if_neg (by rw [hvi]; simp)]
    rw [if_pos (by
      rcases hmem with h | h
      · rw [contains_true_of_mem h]
        simp
      · rw [contains_true_of_mem h]
        simp)]

/-- C10 counterexample: the original claim says a non-identifier
separator content is emitted as a literal string exactly as written, but
the generated `print!` call interprets the spliced content as a format
string: for the content `\x7bx\x7d` the program prints the formatted
value of the variable `x` (here `<x>` under the concrete resolver), not
the literal three characters, and a content consisting of a single quote
breaks the generated string literal instead of printing it. -/
theorem claim10_counterexample :
    isValidIdent "{x}".data = false
    ∧ sepEmit constResolver "{x}".data = some "<x>".data
    ∧ "<x>".data ≠ "{x}".data
    ∧ sepEmit constResolver "\"".data = none
    ∧ printlnOutput constResolver "{i}$({x})" =
        some (renderTokens constResolver
          (parse_format_string (String.mk ("{i}$({x})".data.take 3))).1 ++
          "<x>".data) := by
  refine ⟨by decide, by decide, by decide, by decide, by decide⟩

/-- C10 witness: the separator theorem applied to the template
`\x7bi\x7d$( - )` (plain literal separator, emitted verbatim), to the
interpolated content `\x7bx\x7d`, to `a$(x)b` (non-final directive, not
recognised), to the empty-string marker and to a lone backslash. -/
theorem claim10_witness :
    printlnOutput constResolver "{i}$( - )" =
      some (renderTokens constResolver
        (parse_format_string (String.mk ("{i}$( - )".data.take 3))).1 ++
        " - ".data)
    ∧ sepEmit constResolver " - ".data = some " - ".data
    ∧ sepEmit constResolver ('{' :: ("x".data ++ ['}'])) =
        some (constResolver.varFmt "x" none none).data
    ∧ sepScanOf "a$(x)b" = none
    ∧ printlnOutput constResolver "a$(x)b" =
        some (renderTokens constResolver (parse_format_string "a$(x)b").1 ++
          ['\n'])
    ∧ sepEmit constResolver "\"\"".data = some []
    ∧ sepEmit constResolver "\\".data = none := by
  refine ⟨?_, ?_, ?_, by decide, ?_, ?_, ?_⟩
  · have h1 := (claim10_separator.1 constResolver "{i}$( - )" 3 " - ".data
      (by decide)).1
    have h2 := claim10_separator.2.2.2.2.2.1 constResolver " - ".data
      (by decide) (by decide) (by decide) (by decide) (by decide) (by decide)
    rw [h2] at h1
    simpa using h1
  · exact claim10_separator.2.2.2.2.2.1 constResolver " - ".data
      (by decide) (by decide) (by decide) (by decide) (by decide) (by decide)
  · exact claim10_separator.2.2.2.2.2.2.1 constResolver "x".data (by decide)
  · exact claim10_separator.2.2.1 constResolver "a$(x)b" (by decide)
  · exact claim10_separator.2.2.2.1 constResolver
  · exact claim10_separator.2.2.2.2.2.2.2 constResolver "\\".data
      (by decide) (by decide) (by decide)
